import Mathlib

/-!
# Verification of the Trade Republic gain calculators

Shallow embedding of `compute_avg_cost.py` and `compute_verlusttopf.py`:
the value normalizer (`parse_money` / `parse_shares`), the trade-event
extractor (`parse_trade_event`), the trade loader (`load_trades`), and the
two accounting engines (`avg_realized`, `fifo_realized`).

Python floats are modelled as exact rationals (`ℚ`); the epsilon constants
`1e-9` / `1e-6` become the exact decimals `1/10^9` / `1/10^6`.  Fallible
Python code (attribute errors on `None`/non-dict values, type errors on
non-iterables) is modelled with `Except String`.  Python `dict`s are
modelled as ordered association lists, `defaultdict` state as total
functions with the default value.
-/

/-! ## Value normalizer: character level string helpers

Python's single-character `str.replace` calls are modelled on `List Char`:
`replace(c, '')` is a filter, `replace(a, b)` (single chars) is a map. -/

/-- Python `s.replace(c, '')` for a single character `c`. -/
def removeChar (c : Char) (s : List Char) : List Char :=
  s.filter (fun x => x ≠ c)

/-- Python `s.replace(a, b)` for single characters `a`, `b`. -/
def mapChar (a b : Char) (s : List Char) : List Char :=
  s.map (fun x => if x = a then b else x)

/-- Numeric value of a decimal digit character. -/
def digitVal (c : Char) : ℕ := c.toNat - 48

/-- Big-endian value of a list of decimal digit characters
(the way `float` reads the integer / fraction parts). -/
def digitsVal (ds : List Char) : ℕ :=
  ds.foldl (fun a c => 10 * a + digitVal c) 0

/-- Split off the maximal leading run of decimal digits. -/
def takeDigits : List Char → List Char × List Char
  | [] => ([], [])
  | c :: cs =>
    if c.isDigit then
      let p := takeDigits cs
      (c :: p.1, p.2)
    else ([], c :: cs)

/-- The characters CPython's `float()` strips around a literal. -/
def isPySpace (c : Char) : Bool :=
  c = ' ' || c = '\t' || c = '\n' || c = '\r' || c = '\x0b' || c = '\x0c'

/-- Split an optional leading sign, as the sign factor and the rest. -/
def signSplitQ (cs : List Char) : ℚ × List Char :=
  match cs with
  | [] => (1, [])
  | c :: r => if c = '+' then (1, r) else if c = '-' then (-1, r) else (1, c :: r)

/-- Same, for the integer exponent. -/
def signSplitZ (cs : List Char) : ℤ × List Char :=
  match cs with
  | [] => (1, [])
  | c :: r => if c = '+' then (1, r) else if c = '-' then (-1, r) else (1, c :: r)

/-- Split an optional `.`-led fraction digit run. -/
def fracSplit (cs : List Char) : List Char × List Char :=
  match cs with
  | [] => ([], [])
  | c :: r => if c = '.' then takeDigits r else ([], c :: r)

/-- Modelled stdlib: CPython `float(s)` on ASCII literals — optional
whitespace, optional sign, decimal digits with optional fraction and
optional exponent.  (The `inf`/`nan` spellings and `_` digit separators
accepted by CPython are not modelled; none of the repository's inputs or
the claims exercise them.)  Returns `none` where `float` raises
`ValueError`. -/
def pyFloat (cs : List Char) : Option ℚ :=
  let cs := ((cs.dropWhile isPySpace).reverse.dropWhile isPySpace).reverse
  let sp := signSplitQ cs
  let sgn := sp.1
  let (ip, cs) := takeDigits sp.2
  let fpp := fracSplit cs
  let fp := fpp.1
  let cs := fpp.2
  if ip = [] ∧ fp = [] then none
  else
    let mantissa : ℚ := ((digitsVal ip * 10 ^ fp.length + digitsVal fp : ℕ) : ℚ) / 10 ^ fp.length
    match cs with
    | [] => some (sgn * mantissa)
    | c :: r =>
      if c = 'e' ∨ c = 'E' then (pyFloatExp r).map (fun e => sgn * mantissa * (10 : ℚ) ^ e)
      else none
where
  /-- Exponent part: optional sign then at least one digit, nothing after. -/
  pyFloatExp (cs : List Char) : Option ℤ :=
    let sp := signSplitZ cs
    let q := takeDigits sp.2
    if q.1 = [] ∨ q.2 ≠ [] then none else some (sp.1 * digitsVal q.1)

/-- One attempt of the fallback pattern `-?\d+(?:\.\d+)?` at the current
position: maximal digit run, then optionally `.` plus a nonempty maximal
digit run.  Returns the matched characters. -/
def matchNum (cs : List Char) : Option (List Char) :=
  let (neg, rest) : Bool × List Char :=
    match cs with
    | '-' :: r => (true, r)
    | _ => (false, cs)
  let (ds, rest2) := takeDigits rest
  if ds = [] then none
  else
    let fs : List Char :=
      match rest2 with
      | '.' :: r =>
        let p := takeDigits r
        if p.1 = [] then [] else '.' :: p.1
      | _ => []
    some ((if neg then ['-'] else []) ++ ds ++ fs)

/-- Modelled stdlib: `re.search` for `-?\d+(?:\.\d+)?` — the leftmost
match of the number pattern. -/
def regexSearchNum : List Char → Option (List Char)
  | [] => none
  | c :: cs =>
    match matchNum (c :: cs) with
    | some m => some m
    | none => regexSearchNum cs

/-- `parse_money` from both scripts: strip `\xa0`, `€`, `$` and spaces,
drop every `.` (thousands separator), turn `,` into `.`, parse as float;
on failure fall back to the first regex number match. -/
def parse_money (text : Option String) : Option ℚ :=
  match text with
  | none => none
  | some t =>
    let clean := removeChar ' ' (removeChar '$' (removeChar '€' (removeChar '\xa0' t.toList)))
    let clean := mapChar ',' '.' (removeChar '.' clean)
    match pyFloat clean with
    | some x => some x
    | none => (regexSearchNum clean).bind pyFloat

/-- `parse_shares` from both scripts: strip `\xa0` and spaces, turn `,`
into `.` (the source's trailing `replace('.', '.')` is the identity),
parse as float with the same regex fallback. -/
def parse_shares (text : Option String) : Option ℚ :=
  match text with
  | none => none
  | some t =>
    let clean := removeChar ' ' (removeChar '\xa0' t.toList)
    let clean := mapChar ',' '.' clean
    match pyFloat clean with
    | some x => some x
    | none => (regexSearchNum clean).bind pyFloat

example : parse_money (some ("3,5")) = some (7 / 2) := by
  simp [parse_money, removeChar, mapChar, pyFloat, pyFloat.pyFloatExp, signSplitQ, signSplitZ,
    fracSplit, takeDigits, digitsVal, digitVal, isPySpace] <;> norm_num
example : parse_money (some ("3.5")) = some 35 := by
  simp [parse_money, removeChar, mapChar, pyFloat, pyFloat.pyFloatExp, signSplitQ, signSplitZ,
    fracSplit, takeDigits, digitsVal, digitVal, isPySpace] <;> norm_num
example : parse_shares (some ("3.5")) = some (7 / 2) := by
  simp [parse_shares, removeChar, mapChar, pyFloat, pyFloat.pyFloatExp, signSplitQ, signSplitZ,
    fracSplit, takeDigits, digitsVal, digitVal, isPySpace] <;> norm_num
example : parse_money (some ("-1.234,56 €")) = some (-123456 / 100) := by
  simp [parse_money, removeChar, mapChar, pyFloat, pyFloat.pyFloatExp, signSplitQ, signSplitZ,
    fracSplit, takeDigits, digitsVal, digitVal, isPySpace] <;> norm_num
example : parse_money (some ("abc")) = none := by
  simp [parse_money, removeChar, mapChar, pyFloat, pyFloat.pyFloatExp, signSplitQ, signSplitZ,
    fracSplit, takeDigits, digitsVal, digitVal, isPySpace, regexSearchNum, matchNum]

/-! ## Engine data model

`Trade` mirrors the dict built by `parse_trade_event` as the engines use
it: the engines access `timestamp.year` unconditionally on sells, so the
engine-level trade carries a present timestamp (the loader sorts by
timestamp, which in Python already requires comparability).  Optional
floats stay `Option ℚ`. -/

/-- A point in time: the calendar year together with the normalized ISO
string, which orders timestamps of the uniform export format
chronologically. -/
structure Timestamp where
  year : ℤ
  sub : String
deriving DecidableEq, Repr

/-- Trade side, from the subtitle keywords. -/
inductive Side where
  | buy
  | sell
deriving DecidableEq, Repr

/-- Engine-level trade record (the dict returned by `parse_trade_event`,
with the fields the engines read). -/
structure Trade where
  timestamp : Timestamp
  side : Side
  isin : Option String
  instrument_type : String
  shares : Option ℚ
  price : Option ℚ
  total : Option ℚ
  fee : Option ℚ
  title : Option String
deriving DecidableEq, Repr

/-- The two warning shapes the engines append (the Python formatted
strings, abstracted to their data). -/
inductive Warning where
  | nonstock (instrument_type : String) (title : Option String) (isin : Option String)
  | shortage (title : Option String) (isin : Option String) (missing : ℚ)
deriving DecidableEq, Repr

/-- One `per_sale` entry of the moving-average engine. -/
structure AvgSale where
  date : Timestamp
  isin : Option String
  title : Option String
  shares : ℚ
  proceeds : ℚ
  cost_basis : ℚ
  profit : ℚ
deriving DecidableEq, Repr

/-- One `per_sale` entry of the FIFO engine (adds the category bucket). -/
structure FifoSale where
  date : Timestamp
  isin : Option String
  title : Option String
  category : String
  shares : ℚ
  proceeds : ℚ
  cost_basis : ℚ
  profit : ℚ
deriving DecidableEq, Repr

/-- `1e-9`, the inventory zero-crossing epsilon. -/
def eps9 : ℚ := 1 / 1000000000

/-- `1e-6`, the shortage-warning tolerance. -/
def eps6 : ℚ := 1 / 1000000

/-- `tr.get('fee') or 0.0`: `None` and `0.0` are falsy, any other number
is kept — numerically this is `getD 0`. -/
def feeOr0 (f : Option ℚ) : ℚ := f.getD 0

/-! ## Moving-average engine (`compute_avg_cost.avg_realized`) -/

/-- Mutable state of the `avg_realized` loop.  `positions` models the
`defaultdict(lambda: dict(qty=0.0, cost=0.0))` as a total function
(pairs are `(qty, cost)`); `nonstock_warned` models the warned-ISIN set
as the list of its insertions. -/
structure AvgState where
  positions : Option String → ℚ × ℚ
  realized_total : ℚ
  per_sale : List AvgSale
  warnings : List Warning
  nonstock_warned : List (Option String)

/-- Initial state of `avg_realized`. -/
def avgInit : AvgState :=
  { positions := fun _ => (0, 0)
    realized_total := 0
    per_sale := []
    warnings := []
    nonstock_warned := [] }

/-- One iteration of the `avg_realized` loop body. -/
def avgStep (year : ℤ) (s : AvgState) (tr : Trade) : AvgState :=
  match tr.shares, tr.total with
  | some sh, some tot =>
    let s :=
      if tr.instrument_type ≠ "stock" ∧ tr.isin ∉ s.nonstock_warned then
        { s with
          warnings := s.warnings ++ [Warning.nonstock tr.instrument_type tr.title tr.isin]
          nonstock_warned := s.nonstock_warned ++ [tr.isin] }
      else s
    let fee := feeOr0 tr.fee
    match tr.side with
    | Side.buy =>
      let cost_add := max 0 (|tot| - fee)
      let p := s.positions tr.isin
      { s with positions := fun k => if k = tr.isin then (p.1 + sh, p.2 + cost_add) else s.positions k }
    | Side.sell =>
      let proceeds := tot + fee
      let p := s.positions tr.isin
      let avg_cost := if p.1 > eps9 then p.2 / p.1 else 0
      let used := min sh p.1
      let cost_basis := used * avg_cost
      let p' := (p.1 - used, p.2 - used * avg_cost)
      let p'' := if p'.1 < eps9 then ((0 : ℚ), (0 : ℚ)) else p'
      let s := { s with positions := fun k => if k = tr.isin then p'' else s.positions k }
      let s :=
        if sh - used > eps6 then
          { s with warnings := s.warnings ++ [Warning.shortage tr.title tr.isin (sh - used)] }
        else s
      if tr.timestamp.year = year then
        let profit := proceeds - cost_basis
        { s with
          realized_total := s.realized_total + profit
          per_sale := s.per_sale ++
            [{ date := tr.timestamp, isin := tr.isin, title := tr.title, shares := sh,
               proceeds := proceeds, cost_basis := cost_basis, profit := profit }] }
      else s
  | _, _ => s

/-- `avg_realized(trades, year)`: fold the loop body over the trades and
return `(realized_total, per_sale, warnings)`. -/
def avg_realized (trades : List Trade) (year : ℤ) : ℚ × List AvgSale × List Warning :=
  let s := trades.foldl (avgStep year) avgInit
  (s.realized_total, s.per_sale, s.warnings)

/-! ## FIFO engine (`compute_verlusttopf.fifo_realized`) -/

/-- The two realized buckets (`realized['stock']`, `realized['other']`). -/
structure Realized where
  stock : ℚ
  other : ℚ
deriving DecidableEq, Repr

/-- The FIFO lot-consumption loop (`while remaining > 1e-9 and
positions[isin]`).  Lots are `(shares, cost_total)` pairs; returns the
remaining queue, the uncovered remainder, and the accumulated cost.
In the branch that keeps a shrunken head lot, `ls - take > eps9` forces
`take = remaining`, so the next `while` test `0 > 1e-9` fails and the
Python loop exits with exactly this state. -/
def fifoConsume : List (ℚ × ℚ) → ℚ → ℚ → List (ℚ × ℚ) × ℚ × ℚ
  | [], remaining, cost_sum => ([], remaining, cost_sum)
  | (ls, lc) :: rest, remaining, cost_sum =>
    if remaining ≤ eps9 then ((ls, lc) :: rest, remaining, cost_sum)
    else
      let take := min remaining ls
      let cps := lc / ls
      let cost_sum' := cost_sum + take * cps
      let ls' := ls - take
      let remaining' := remaining - take
      if ls' ≤ eps9 then fifoConsume rest remaining' cost_sum'
      else ((ls', ls' * cps) :: rest, remaining', cost_sum')

/-- Mutable state of the `fifo_realized` loop; `positions` models the
`defaultdict(deque)` of lots. -/
structure FifoState where
  positions : Option String → List (ℚ × ℚ)
  realized : Realized
  per_sale : List FifoSale
  warnings : List Warning

/-- Initial state of `fifo_realized`. -/
def fifoInit : FifoState :=
  { positions := fun _ => []
    realized := { stock := 0, other := 0 }
    per_sale := []
    warnings := [] }

/-- `realized[cat] += profit`. -/
def addRealized (r : Realized) (cat : String) (profit : ℚ) : Realized :=
  if cat = "stock" then { r with stock := r.stock + profit }
  else { r with other := r.other + profit }

/-- One iteration of the `fifo_realized` loop body. -/
def fifoStep (year : ℤ) (s : FifoState) (tr : Trade) : FifoState :=
  let cat := if tr.instrument_type = "stock" then "stock" else "other"
  match tr.side with
  | Side.buy =>
    match tr.shares, tr.total with
    | some sh, some tot =>
      { s with positions := fun k =>
          if k = tr.isin then s.positions tr.isin ++ [(sh, |tot|)] else s.positions k }
    | _, _ => s
  | Side.sell =>
    if tr.timestamp.year ≠ year then s
    else
      match tr.shares, tr.total with
      | some sh, some tot =>
        let r := fifoConsume (s.positions tr.isin) sh 0
        let lots' := r.1
        let remaining := r.2.1
        let cost_sum := r.2.2
        let s := { s with positions := fun k => if k = tr.isin then lots' else s.positions k }
        let s :=
          if remaining > eps6 then
            { s with warnings := s.warnings ++ [Warning.shortage tr.title tr.isin remaining] }
          else s
        let profit := tot - cost_sum
        { s with
          realized := addRealized s.realized cat profit
          per_sale := s.per_sale ++
            [{ date := tr.timestamp, isin := tr.isin, title := tr.title, category := cat,
               shares := sh, proceeds := tot, cost_basis := cost_sum, profit := profit }] }
      | _, _ => s

/-- `fifo_realized(trades, year)`: fold the loop body over the trades and
return `(realized, per_sale, warnings)`. -/
def fifo_realized (trades : List Trade) (year : ℤ) : Realized × List FifoSale × List Warning :=
  let s := trades.foldl (fifoStep year) fifoInit
  (s.realized, s.per_sale, s.warnings)

/-! ## Claim C1: the two-buys-one-sell scenario -/

/-- Timestamps for the concrete scenarios (all in the requested year). -/
def c1ts (n : ℤ) : Timestamp := { year := 2025, sub := toString n }

/-- Buy 10 shares for a net 1000, buy 5 for a net 600, sell 12 for 1800,
one instrument, zero fees, all in the requested year. -/
def c1trades : List Trade :=
  [ { timestamp := c1ts 1, side := Side.buy, isin := some ("X1"), instrument_type := "stock",
      shares := some 10, price := none, total := some (-1000), fee := none, title := none },
    { timestamp := c1ts 2, side := Side.buy, isin := some ("X1"), instrument_type := "stock",
      shares := some 5, price := none, total := some (-600), fee := none, title := none },
    { timestamp := c1ts 3, side := Side.sell, isin := some ("X1"), instrument_type := "stock",
      shares := some 12, price := none, total := some 1800, fee := none, title := none } ]

/-- C1: on the scenario buy 10 @ total 1000, buy 5 @ total 600, sell 12 @
total 1800 (single instrument, no prior inventory, zero fees, all trades
in the requested year), `avg_realized` returns `realized_total = 520`
(weighted-average cost basis `12 * 1600/15 = 1280`) and `fifo_realized`
returns `realized['stock'] = 560` (FIFO cost basis
`10*100 + 2*120 = 1240`). -/
theorem C1_scenario_engines :
    (avg_realized c1trades 2025).1 = 520 ∧
      (avg_realized c1trades 2025).2.1.map AvgSale.cost_basis = [1280] ∧
      (fifo_realized c1trades 2025).1.stock = 560 ∧
      (fifo_realized c1trades 2025).2.1.map FifoSale.cost_basis = [1240] := by
  refine ⟨?_, ?_, ?_, ?_⟩ <;>
    simp [avg_realized, avgStep, avgInit, fifo_realized, fifoStep, fifoInit, fifoConsume,
      addRealized, c1trades, c1ts, feeOr0, eps9, eps6] <;> norm_num

/-! ## Claim C2: year filtering -/

/-- Sum of the profits recorded in a moving-average `per_sale` list. -/
def avgProfitSum (l : List AvgSale) : ℚ := (l.map AvgSale.profit).sum

/-- Sum of the profits recorded in a FIFO `per_sale` list. -/
def fifoProfitSum (l : List FifoSale) : ℚ := (l.map FifoSale.profit).sum

/-- A sell outside the requested year leaves the FIFO state completely
unchanged (`continue` before any other work). -/
theorem fifoStep_offyear_sell (year : ℤ) (s : FifoState) (tr : Trade)
    (hside : tr.side = Side.sell) (hyear : tr.timestamp.year ≠ year) :
    fifoStep year s tr = s := by
  simp [fifoStep, hside, hyear]

/-- A sell outside the requested year does not touch the moving-average
realized total or `per_sale` list. -/
theorem avgStep_offyear_sell (year : ℤ) (s : AvgState) (tr : Trade)
    (hside : tr.side = Side.sell) (hyear : tr.timestamp.year ≠ year) :
    (avgStep year s tr).realized_total = s.realized_total ∧
      (avgStep year s tr).per_sale = s.per_sale := by
  cases hsh : tr.shares with
  | none => simp [avgStep, hsh]
  | some sh =>
    cases htot : tr.total with
    | none => simp [avgStep, hsh, htot]
    | some tot =>
      simp only [avgStep, hsh, htot, hside]
      split <;> split <;> split <;> simp_all

/-- The moving-average position update never depends on the requested
year (the pool mutation happens before the year check). -/
theorem avgStep_positions_year_indep (y y' : ℤ) (s : AvgState) (tr : Trade) :
    (avgStep y s tr).positions = (avgStep y' s tr).positions := by
  cases hsh : tr.shares with
  | none => simp [avgStep, hsh]
  | some sh =>
    cases htot : tr.total with
    | none => simp [avgStep, hsh, htot]
    | some tot =>
      cases hside : tr.side <;>
        simp [avgStep, hsh, htot, hside, apply_ite AvgState.positions]

@[simp] theorem avgProfitSum_nil : avgProfitSum [] = 0 := rfl

@[simp] theorem avgProfitSum_append (l1 l2 : List AvgSale) :
    avgProfitSum (l1 ++ l2) = avgProfitSum l1 + avgProfitSum l2 := by
  simp [avgProfitSum]

@[simp] theorem fifoProfitSum_nil : fifoProfitSum [] = 0 := rfl

@[simp] theorem fifoProfitSum_append (l1 l2 : List FifoSale) :
    fifoProfitSum (l1 ++ l2) = fifoProfitSum l1 + fifoProfitSum l2 := by
  simp [fifoProfitSum]

/-- One moving-average step changes the realized total by exactly the
profit it appends to `per_sale`. -/
theorem avgStep_profit_diff (year : ℤ) (s : AvgState) (tr : Trade) :
    (avgStep year s tr).realized_total - avgProfitSum (avgStep year s tr).per_sale
      = s.realized_total - avgProfitSum s.per_sale := by
  cases hsh : tr.shares with
  | none => simp [avgStep, hsh]
  | some sh =>
    cases htot : tr.total with
    | none => simp [avgStep, hsh, htot]
    | some tot =>
      cases hside : tr.side <;> simp only [avgStep, hsh, htot, hside] <;>
        split <;> (try split) <;> (try split) <;> (try split) <;>
          simp [avgProfitSum] <;> ring

/-- Every `per_sale` entry a moving-average step adds is dated in the
requested year. -/
theorem avgStep_per_sale_mem (year : ℤ) (s : AvgState) (tr : Trade) :
    ∀ x ∈ (avgStep year s tr).per_sale, x ∈ s.per_sale ∨ x.date.year = year := by
  cases hsh : tr.shares with
  | none => simp only [avgStep, hsh]; exact fun x hx => Or.inl hx
  | some sh =>
    cases htot : tr.total with
    | none => simp only [avgStep, hsh, htot]; exact fun x hx => Or.inl hx
    | some tot =>
      cases hside : tr.side with
      | buy =>
        simp only [avgStep, hsh, htot, hside]
        split <;> exact fun x hx => Or.inl hx
      | sell =>
        by_cases hy : tr.timestamp.year = year
        · intro x hx
          simp only [avgStep, hsh, htot, hside, hy, apply_ite AvgState.per_sale, if_pos rfl,
            ite_self] at hx
          rcases List.mem_append.mp hx with hx | hx
          · exact Or.inl hx
          · simp only [List.mem_singleton] at hx
            subst hx
            exact Or.inr hy
        · intro x hx
          simp only [avgStep, hsh, htot, hside, apply_ite AvgState.per_sale, if_neg hy,
            ite_self] at hx
          exact Or.inl hx

/-- One FIFO step changes the two realized buckets by exactly the profit
it appends to `per_sale`. -/
theorem fifoStep_profit_diff (year : ℤ) (s : FifoState) (tr : Trade) :
    ((fifoStep year s tr).realized.stock + (fifoStep year s tr).realized.other)
        - fifoProfitSum (fifoStep year s tr).per_sale
      = (s.realized.stock + s.realized.other) - fifoProfitSum s.per_sale := by
  cases hside : tr.side with
  | buy =>
    cases hsh : tr.shares with
    | none => simp [fifoStep, hside, hsh]
    | some sh =>
      cases htot : tr.total with
      | none => simp [fifoStep, hside, hsh, htot]
      | some tot => simp [fifoStep, hside, hsh, htot]
  | sell =>
    by_cases hy : tr.timestamp.year = year
    · cases hsh : tr.shares with
      | none => simp [fifoStep, hside, hsh, hy]
      | some sh =>
        cases htot : tr.total with
        | none => simp [fifoStep, hside, hsh, htot, hy]
        | some tot =>
          simp only [fifoStep, hside, hsh, htot, hy, if_neg (by simp : ¬year ≠ year)]
          split <;> split <;> simp [addRealized, fifoProfitSum] <;> ring
    · simp [fifoStep, hside, hy]

/-- Every `per_sale` entry a FIFO step adds is dated in the requested
year. -/
theorem fifoStep_per_sale_mem (year : ℤ) (s : FifoState) (tr : Trade) :
    ∀ x ∈ (fifoStep year s tr).per_sale, x ∈ s.per_sale ∨ x.date.year = year := by
  cases hside : tr.side with
  | buy =>
    cases hsh : tr.shares with
    | none => simp only [fifoStep, hside, hsh]; exact fun x hx => Or.inl hx
    | some sh =>
      cases htot : tr.total with
      | none => simp only [fifoStep, hside, hsh, htot]; exact fun x hx => Or.inl hx
      | some tot => simp only [fifoStep, hside, hsh, htot]; exact fun x hx => Or.inl hx
  | sell =>
    by_cases hy : tr.timestamp.year = year
    · cases hsh : tr.shares with
      | none =>
        simp only [fifoStep, hside, hsh, hy, if_neg (by simp : ¬year ≠ year)]
        exact fun x hx => Or.inl hx
      | some sh =>
        cases htot : tr.total with
        | none =>
          simp only [fifoStep, hside, hsh, htot, hy, if_neg (by simp : ¬year ≠ year)]
          exact fun x hx => Or.inl hx
        | some tot =>
          intro x hx
          simp only [fifoStep, hside, hsh, htot, hy, if_neg (by simp : ¬year ≠ year),
            apply_ite FifoState.per_sale, ite_self] at hx
          rcases List.mem_append.mp hx with hx | hx
          · exact Or.inl hx
          · simp only [List.mem_singleton] at hx
            subst hx
            exact Or.inr hy
    · intro x hx
      simp only [fifoStep_offyear_sell year s tr hside hy] at hx
      exact Or.inl hx

/-- Folding the moving-average loop preserves the realized-total /
profit-sum difference. -/
theorem avg_fold_profit_diff (year : ℤ) (trades : List Trade) :
    ∀ s : AvgState,
      (trades.foldl (avgStep year) s).realized_total
          - avgProfitSum (trades.foldl (avgStep year) s).per_sale
        = s.realized_total - avgProfitSum s.per_sale := by
  induction trades with
  | nil => intro s; rfl
  | cons tr rest ih =>
    intro s
    simpa [List.foldl_cons, ih (avgStep year s tr)] using avgStep_profit_diff year s tr

/-- Folding the moving-average loop only ever records sales dated in the
requested year (beyond what was already recorded). -/
theorem avg_fold_per_sale_mem (year : ℤ) (trades : List Trade) :
    ∀ s : AvgState, ∀ x ∈ (trades.foldl (avgStep year) s).per_sale,
      x ∈ s.per_sale ∨ x.date.year = year := by
  induction trades with
  | nil => intro s x hx; exact Or.inl hx
  | cons tr rest ih =>
    intro s x hx
    rcases ih (avgStep year s tr) x hx with h | h
    · exact avgStep_per_sale_mem year s tr x h
    · exact Or.inr h

/-- Folding the FIFO loop preserves the buckets-sum / profit-sum
difference. -/
theorem fifo_fold_profit_diff (year : ℤ) (trades : List Trade) :
    ∀ s : FifoState,
      ((trades.foldl (fifoStep year) s).realized.stock
            + (trades.foldl (fifoStep year) s).realized.other)
          - fifoProfitSum (trades.foldl (fifoStep year) s).per_sale
        = (s.realized.stock + s.realized.other) - fifoProfitSum s.per_sale := by
  induction trades with
  | nil => intro s; rfl
  | cons tr rest ih =>
    intro s
    simpa [List.foldl_cons, ih (fifoStep year s tr)] using fifoStep_profit_diff year s tr

/-- Folding the FIFO loop only ever records sales dated in the requested
year. -/
theorem fifo_fold_per_sale_mem (year : ℤ) (trades : List Trade) :
    ∀ s : FifoState, ∀ x ∈ (trades.foldl (fifoStep year) s).per_sale,
      x ∈ s.per_sale ∨ x.date.year = year := by
  induction trades with
  | nil => intro s x hx; exact Or.inl hx
  | cons tr rest ih =>
    intro s x hx
    rcases ih (fifoStep year s tr) x hx with h | h
    · exact fifoStep_per_sale_mem year s tr x h
    · exact Or.inr h

/-- C2: sells outside the requested year never appear in `per_sale` and
contribute nothing to the realized totals of either engine (the totals
are exactly the sum of the recorded per-sale profits, and every recorded
sale is dated in the requested year); the moving-average engine still
performs the identical pool mutation for such a sell (its position update
does not depend on the requested year, while its realized total and
`per_sale` stay untouched), whereas the FIFO engine skips it entirely,
leaving the whole state — every lot queue included — unchanged. -/
theorem C2_year_filtering :
    (∀ (trades : List Trade) (year : ℤ),
        (avg_realized trades year).1 = avgProfitSum (avg_realized trades year).2.1 ∧
          ∀ x ∈ (avg_realized trades year).2.1, x.date.year = year) ∧
      (∀ (trades : List Trade) (year : ℤ),
          (fifo_realized trades year).1.stock + (fifo_realized trades year).1.other
              = fifoProfitSum (fifo_realized trades year).2.1 ∧
            ∀ x ∈ (fifo_realized trades year).2.1, x.date.year = year) ∧
      (∀ (year : ℤ) (s : FifoState) (tr : Trade),
          tr.side = Side.sell → tr.timestamp.year ≠ year → fifoStep year s tr = s) ∧
      (∀ (year : ℤ) (s : AvgState) (tr : Trade),
          tr.side = Side.sell → tr.timestamp.year ≠ year →
            (avgStep year s tr).realized_total = s.realized_total ∧
              (avgStep year s tr).per_sale = s.per_sale) ∧
      (∀ (y y' : ℤ) (s : AvgState) (tr : Trade),
          (avgStep y s tr).positions = (avgStep y' s tr).positions) := by
  refine ⟨fun trades year => ⟨?_, ?_⟩, fun trades year => ⟨?_, ?_⟩,
    fifoStep_offyear_sell, avgStep_offyear_sell, avgStep_positions_year_indep⟩
  · have h := avg_fold_profit_diff year trades avgInit
    have h0 : avgInit.realized_total - avgProfitSum avgInit.per_sale = 0 := by
      norm_num [avgInit, avgProfitSum]
    rw [h0] at h
    exact sub_eq_zero.mp h
  · intro x hx
    rcases avg_fold_per_sale_mem year trades avgInit x (by simpa [avg_realized] using hx) with h | h
    · simp [avgInit] at h
    · exact h
  · have h := fifo_fold_profit_diff year trades fifoInit
    have h0 : (fifoInit.realized.stock + fifoInit.realized.other)
        - fifoProfitSum fifoInit.per_sale = 0 := by
      norm_num [fifoInit, fifoProfitSum]
    rw [h0] at h
    exact sub_eq_zero.mp h
  · intro x hx
    rcases fifo_fold_per_sale_mem year trades fifoInit x (by simpa [fifo_realized] using hx) with h | h
    · simp [fifoInit] at h
    · exact h

/-- An off-year sell used to witness the year-filtering claim. -/
def c2sell : Trade :=
  { timestamp := { year := 2024, sub := "w" }, side := Side.sell, isin := some ("X1"),
    instrument_type := "stock", shares := some 1, price := none, total := some 100,
    fee := none, title := none }

/-- Witness for C2 at a concrete off-year sell. -/
theorem C2_year_filtering_witness :
    fifoStep 2025 fifoInit c2sell = fifoInit ∧
      (avgStep 2025 avgInit c2sell).realized_total = avgInit.realized_total ∧
      (avgStep 2025 avgInit c2sell).positions = (avgStep 2024 avgInit c2sell).positions ∧
      (avg_realized [c2sell] 2025).1 = avgProfitSum (avg_realized [c2sell] 2025).2.1 :=
  ⟨C2_year_filtering.2.2.1 2025 fifoInit c2sell rfl (by decide),
    (C2_year_filtering.2.2.2.1 2025 avgInit c2sell rfl (by decide)).1,
    C2_year_filtering.2.2.2.2 2025 2024 avgInit c2sell,
    (C2_year_filtering.1 [c2sell] 2025).1⟩

/-! ## Claim C3: fee treatment in the moving-average engine -/

/-- C3: in the moving-average engine, a buy with `shares` and `total`
present adds exactly `max(0, |total| − fee)` to the pool's cost and the
trade's share count to its quantity (other pools untouched); a sell in
the requested year records proceeds `total + fee`; in both, a missing
fee is read as `0`. -/
theorem C3_avg_fee_handling :
    ∀ (year : ℤ) (s : AvgState) (tr : Trade) (sh tot : ℚ),
      tr.shares = some sh → tr.total = some tot →
      (tr.side = Side.buy →
        (avgStep year s tr).positions tr.isin
            = ((s.positions tr.isin).1 + sh,
               (s.positions tr.isin).2 + max 0 (|tot| - tr.fee.getD 0)) ∧
          ∀ k, k ≠ tr.isin → (avgStep year s tr).positions k = s.positions k) ∧
      (tr.side = Side.sell → tr.timestamp.year = year →
        ∃ e : AvgSale, (avgStep year s tr).per_sale = s.per_sale ++ [e] ∧
          e.proceeds = tot + tr.fee.getD 0) := by
  intro year s tr sh tot hsh htot
  constructor
  · intro hside
    constructor
    · simp [avgStep, hsh, htot, hside, feeOr0, apply_ite AvgState.positions]
    · intro k hk
      simp [avgStep, hsh, htot, hside, feeOr0, apply_ite AvgState.positions, hk]
  · intro hside hy
    refine ⟨{ date := tr.timestamp, isin := tr.isin, title := tr.title, shares := sh,
              proceeds := tot + tr.fee.getD 0,
              cost_basis := min sh (s.positions tr.isin).1 *
                (if (s.positions tr.isin).1 > eps9 then
                  (s.positions tr.isin).2 / (s.positions tr.isin).1 else 0),
              profit := tot + tr.fee.getD 0 - min sh (s.positions tr.isin).1 *
                (if (s.positions tr.isin).1 > eps9 then
                  (s.positions tr.isin).2 / (s.positions tr.isin).1 else 0) }, ?_, rfl⟩
    simp [avgStep, hsh, htot, hside, hy, feeOr0, apply_ite AvgState.per_sale,
      apply_ite AvgState.positions]

/-- A buy with an explicit fee used to witness the fee-handling claim. -/
def c3buy : Trade :=
  { timestamp := { year := 2025, sub := "b" }, side := Side.buy, isin := some ("X1"),
    instrument_type := "stock", shares := some 2, price := none, total := some (-210),
    fee := some 10, title := none }

/-- Witness for C3 at a concrete buy (fee 10) and a concrete sell
(fee absent). -/
theorem C3_avg_fee_handling_witness :
    (avgStep 2025 avgInit c3buy).positions c3buy.isin
        = ((avgInit.positions c3buy.isin).1 + 2,
           (avgInit.positions c3buy.isin).2 + max 0 (|(-210 : ℚ)| - (10 : ℚ))) ∧
      ∃ e : AvgSale, (avgStep 2024 avgInit c2sell).per_sale = avgInit.per_sale ++ [e] ∧
        e.proceeds = 100 + ((0 : ℚ)) :=
  ⟨((C3_avg_fee_handling 2025 avgInit c3buy 2 (-210) rfl rfl).1 rfl).1,
    (C3_avg_fee_handling 2024 avgInit c2sell 1 100 rfl rfl).2 rfl rfl⟩

/-! ## Claim C7: inventory shortage -/

/-- Total share count of a FIFO lot queue. -/
def sumShares (lots : List (ℚ × ℚ)) : ℚ := (lots.map Prod.fst).sum

/-- Total cost of a FIFO lot queue. -/
def sumCosts (lots : List (ℚ × ℚ)) : ℚ := (lots.map Prod.snd).sum

@[simp] theorem sumShares_nil : sumShares [] = 0 := rfl

@[simp] theorem sumShares_cons (l : ℚ × ℚ) (ls : List (ℚ × ℚ)) :
    sumShares (l :: ls) = l.1 + sumShares ls := by simp [sumShares]

@[simp] theorem sumCosts_nil : sumCosts [] = 0 := rfl

@[simp] theorem sumCosts_cons (l : ℚ × ℚ) (ls : List (ℚ × ℚ)) :
    sumCosts (l :: ls) = l.2 + sumCosts ls := by simp [sumCosts]

theorem sumShares_nonneg (lots : List (ℚ × ℚ)) (h : ∀ l ∈ lots, 0 < l.1) :
    0 ≤ sumShares lots := by
  induction lots with
  | nil => simp
  | cons l ls ih =>
    have h1 := h l (List.mem_cons_self l ls)
    have h2 := ih fun x hx => h x (List.mem_cons_of_mem l hx)
    simp only [sumShares_cons]
    linarith

/-- When the sell quantity exceeds the whole queue by more than the loop
epsilon, the FIFO consumption loop drains the queue completely, consuming
every lot's full cost. -/
theorem fifoConsume_exhaust (lots : List (ℚ × ℚ)) :
    ∀ r c : ℚ, (∀ l ∈ lots, 0 < l.1) → sumShares lots + eps9 < r →
      fifoConsume lots r c = ([], r - sumShares lots, c + sumCosts lots) := by
  induction lots with
  | nil => intro r c _ _; simp [fifoConsume]
  | cons l rest ih =>
    intro r c hpos hr
    obtain ⟨ls, lc⟩ := l
    have hls : 0 < ls := hpos (ls, lc) (List.mem_cons_self _ _)
    have hrest : ∀ x ∈ rest, 0 < x.1 := fun x hx => hpos x (List.mem_cons_of_mem _ hx)
    have hsum : 0 ≤ sumShares rest := sumShares_nonneg rest hrest
    have heps : (0 : ℚ) < eps9 := by norm_num [eps9]
    simp only [sumShares_cons] at hr
    have hlt : ls < r := by linarith
    have hgt : ¬ r ≤ eps9 := by push_neg; linarith
    rw [fifoConsume, if_neg hgt]
    have hmin : min r ls = ls := min_eq_right (le_of_lt hlt)
    rw [hmin]
    have hzero : ls - ls ≤ eps9 := by linarith
    rw [if_pos hzero]
    rw [ih (r - ls) (c + ls * (lc / ls)) hrest (by linarith)]
    have hdiv : ls * (lc / ls) = lc := by
      field_simp
    rw [hdiv]
    simp only [Prod.mk.injEq, true_and, sumShares_cons, sumCosts_cons]
    refine ⟨by ring, by ring⟩

/-- C7: in both engines a sell exceeding the tracked inventory by more
than `1e-6` appends a shortage warning, and the recorded sale's cost
basis covers only the inventory actually consumed — the whole pool at
average cost (moving-average engine), respectively the total cost of the
drained lot queue (FIFO engine) — while the recorded proceeds count in
full; processing continues (the sale is still recorded).  For the FIFO
engine the sell must be in the requested year (off-year sells are
skipped altogether). -/
theorem C7_shortage :
    (∀ (year : ℤ) (s : AvgState) (tr : Trade) (sh tot : ℚ),
        tr.side = Side.sell → tr.shares = some sh → tr.total = some tot →
        (s.positions tr.isin).1 + eps6 < sh →
        (∃ pre, (avgStep year s tr).warnings
            = s.warnings ++ pre ++
              [Warning.shortage tr.title tr.isin (sh - (s.positions tr.isin).1)]) ∧
        (tr.timestamp.year = year →
          ∃ e : AvgSale, (avgStep year s tr).per_sale = s.per_sale ++ [e] ∧
            e.cost_basis = (s.positions tr.isin).1 *
              (if (s.positions tr.isin).1 > eps9 then
                (s.positions tr.isin).2 / (s.positions tr.isin).1 else 0) ∧
            e.proceeds = tot + feeOr0 tr.fee)) ∧
      (∀ (year : ℤ) (s : FifoState) (tr : Trade) (sh tot : ℚ),
          tr.side = Side.sell → tr.timestamp.year = year →
          tr.shares = some sh → tr.total = some tot →
          (∀ l ∈ s.positions tr.isin, 0 < l.1) →
          sumShares (s.positions tr.isin) + eps6 < sh →
          (fifoStep year s tr).warnings
              = s.warnings ++
                [Warning.shortage tr.title tr.isin (sh - sumShares (s.positions tr.isin))] ∧
            (fifoStep year s tr).positions tr.isin = [] ∧
            ∃ e : FifoSale, (fifoStep year s tr).per_sale = s.per_sale ++ [e] ∧
              e.cost_basis = sumCosts (s.positions tr.isin) ∧ e.proceeds = tot) := by
  constructor
  · intro year s tr sh tot hside hsh htot hq
    have heps : (0 : ℚ) < eps6 := by norm_num [eps6]
    have hlt : (s.positions tr.isin).1 < sh := by linarith
    have hmin : min sh (s.positions tr.isin).1 = (s.positions tr.isin).1 :=
      min_eq_right (le_of_lt hlt)
    have hcond : sh - min sh (s.positions tr.isin).1 > eps6 := by rw [hmin]; linarith
    constructor
    · by_cases hn : tr.instrument_type ≠ "stock" ∧ tr.isin ∉ s.nonstock_warned
      · refine ⟨[Warning.nonstock tr.instrument_type tr.title tr.isin], ?_⟩
        simp only [avgStep, hsh, htot, hside, if_pos hn, apply_ite AvgState.warnings,
          apply_ite AvgState.positions, ite_self]
        rw [hmin] at hcond ⊢
        simp [hcond, apply_ite AvgState.warnings]
      · refine ⟨[], ?_⟩
        simp only [avgStep, hsh, htot, hside, if_neg hn, apply_ite AvgState.warnings,
          apply_ite AvgState.positions, ite_self]
        rw [hmin] at hcond ⊢
        simp [hcond, apply_ite AvgState.warnings]
    · intro hy
      refine ⟨{ date := tr.timestamp, isin := tr.isin, title := tr.title, shares := sh,
                proceeds := tot + feeOr0 tr.fee,
                cost_basis := (s.positions tr.isin).1 *
                  (if (s.positions tr.isin).1 > eps9 then
                    (s.positions tr.isin).2 / (s.positions tr.isin).1 else 0),
                profit := tot + feeOr0 tr.fee - (s.positions tr.isin).1 *
                  (if (s.positions tr.isin).1 > eps9 then
                    (s.positions tr.isin).2 / (s.positions tr.isin).1 else 0) }, ?_, rfl, rfl⟩
      simp only [avgStep, hsh, htot, hside, hy, apply_ite AvgState.per_sale,
        apply_ite AvgState.positions, ite_self, if_pos rfl, hmin]
      simp [apply_ite AvgState.per_sale]
  · intro year s tr sh tot hside hy hsh htot hpos hq
    have heps : (0 : ℚ) < eps6 := by norm_num [eps6]
    have heps9 : eps9 < eps6 := by norm_num [eps9, eps6]
    have hcons := fifoConsume_exhaust (s.positions tr.isin) sh 0 hpos (by linarith)
    have hrem : sh - sumShares (s.positions tr.isin) > eps6 := by linarith
    refine ⟨?_, ?_, ⟨⟨tr.timestamp, tr.isin, tr.title,
        (if tr.instrument_type = "stock" then ("stock") else ("other")),
        sh, tot, sumCosts (s.positions tr.isin),
        tot - sumCosts (s.positions tr.isin)⟩, ?_, rfl, rfl⟩⟩ <;>
      simp only [fifoStep, hside, hy, if_neg (by simp : ¬year ≠ year), hsh, htot, hcons,
        apply_ite FifoState.warnings, apply_ite FifoState.per_sale,
        apply_ite FifoState.positions, ite_self] <;>
      simp [hrem, zero_add]

/-- An in-year sell of 2 shares used to witness the shortage claim. -/
def c7sell : Trade :=
  { timestamp := { year := 2025, sub := "s" }, side := Side.sell, isin := some ("X1"),
    instrument_type := "stock", shares := some 2, price := none, total := some 300,
    fee := none, title := none }

/-- A FIFO state holding a single one-share lot of cost 10 on the
witnessed instrument. -/
def c7state : FifoState :=
  { positions := fun k => if k = some ("X1") then [(1, 10)] else []
    realized := { stock := 0, other := 0 }
    per_sale := []
    warnings := [] }

/-- Witness for C7: selling 2 shares against an empty pool
(moving-average) and against a single 1-share lot (FIFO). -/
theorem C7_shortage_witness :
    (∃ pre, (avgStep 2025 avgInit c7sell).warnings
        = avgInit.warnings ++ pre ++
          [Warning.shortage c7sell.title c7sell.isin
            (2 - (avgInit.positions c7sell.isin).1)]) ∧
      (fifoStep 2025 c7state c7sell).warnings
          = c7state.warnings ++
            [Warning.shortage c7sell.title c7sell.isin
              (2 - sumShares (c7state.positions c7sell.isin))] :=
  ⟨(C7_shortage.1 2025 avgInit c7sell 2 300 rfl rfl rfl
      (by norm_num [avgInit, eps6])).1,
    (C7_shortage.2 2025 c7state c7sell 2 300 rfl rfl rfl rfl
      (by intro l hl; simp [c7state, c7sell] at hl; subst hl; norm_num)
      (by norm_num [c7state, c7sell, sumShares, eps6])).1⟩

/-! ## Claim C9: moving-average pool invariant -/

/-- One moving-average step keeps every pool quantity nonnegative,
provided the trade's share count (when present) is nonnegative. -/
theorem avgStep_qty_nonneg (year : ℤ) (s : AvgState) (tr : Trade)
    (hs : ∀ q : ℚ, tr.shares = some q → 0 ≤ q)
    (h : ∀ k, 0 ≤ (s.positions k).1) :
    ∀ k, 0 ≤ ((avgStep year s tr).positions k).1 := by
  intro k
  cases hsh : tr.shares with
  | none => simp only [avgStep, hsh]; exact h k
  | some sh =>
    cases htot : tr.total with
    | none => simp only [avgStep, hsh, htot]; exact h k
    | some tot =>
      have hsh0 : 0 ≤ sh := hs sh hsh
      cases hside : tr.side with
      | buy =>
        simp only [avgStep, hsh, htot, hside, apply_ite AvgState.positions, ite_self]
        by_cases hk : k = tr.isin <;> simp [hk]
        · exact add_nonneg (h tr.isin) hsh0
        · exact h k
      | sell =>
        simp only [avgStep, hsh, htot, hside, apply_ite AvgState.positions, ite_self]
        by_cases hk : k = tr.isin <;> simp [hk]
        · split
          · norm_num
          · linarith [min_le_right sh (s.positions tr.isin).1, h tr.isin]
        · exact h k

/-- Folding the moving-average loop over nonnegative-share trades keeps
every pool quantity nonnegative. -/
theorem avg_fold_qty_nonneg (year : ℤ) :
    ∀ (p : List Trade), (∀ tr ∈ p, ∀ q : ℚ, tr.shares = some q → 0 ≤ q) →
      ∀ s : AvgState, (∀ k, 0 ≤ (s.positions k).1) →
      ∀ k, 0 ≤ ((p.foldl (avgStep year) s).positions k).1 := by
  intro p
  induction p with
  | nil => intro _ s h k; exact h k
  | cons tr rest ih =>
    intro hp s h k
    exact ih (fun x hx => hp x (List.mem_cons_of_mem tr hx)) (avgStep year s tr)
      (avgStep_qty_nonneg year s tr (hp tr (List.mem_cons_self tr rest)) h) k

/-- C9: for trade lists whose trades carry nonnegative share counts,
every instrument pool of the moving-average engine has nonnegative
quantity after each processed trade (i.e. after folding any leading part
of the list); and whenever a sell leaves a pool's quantity below the
`1e-9` epsilon, the pool is snapped to exactly `(0, 0)`. -/
theorem C9_avg_pool_invariant :
    (∀ (year : ℤ) (trades p rest : List Trade),
        trades = p ++ rest →
        (∀ tr ∈ trades, ∀ q : ℚ, tr.shares = some q → 0 ≤ q) →
        ∀ k, 0 ≤ ((p.foldl (avgStep year) avgInit).positions k).1) ∧
      (∀ (year : ℤ) (s : AvgState) (tr : Trade) (sh tot : ℚ),
          tr.side = Side.sell → tr.shares = some sh → tr.total = some tot →
          ((avgStep year s tr).positions tr.isin).1 < eps9 →
          (avgStep year s tr).positions tr.isin = (0, 0)) := by
  constructor
  · intro year trades p rest heq hp k
    refine avg_fold_qty_nonneg year p ?_ avgInit (by intro k'; norm_num [avgInit]) k
    intro tr htr
    exact hp tr (heq ▸ List.mem_append_left rest htr)
  · intro year s tr sh tot hside hsh htot hlt
    revert hlt
    simp only [avgStep, hsh, htot, hside, apply_ite AvgState.positions, ite_self,
      eq_self_iff_true, if_true]
    split
    · intro _; rfl
    · intro hlt
      rename_i hge
      exact absurd hlt hge

/-- A sell that snaps the pool: sell the full single-share position. -/
def c9sell : Trade :=
  { timestamp := { year := 2025, sub := "s" }, side := Side.sell, isin := some ("X1"),
    instrument_type := "stock", shares := some 1, price := none, total := some 10,
    fee := none, title := none }

/-- A one-trade prefix and a state holding one share at cost 10. -/
def c9state : AvgState :=
  { positions := fun k => if k = some ("X1") then (1, 10) else (0, 0)
    realized_total := 0
    per_sale := []
    warnings := []
    nonstock_warned := [] }

/-- Witness for C9 at a concrete prefix and a concrete snapping sell. -/
theorem C9_avg_pool_invariant_witness :
    (∀ k, 0 ≤ (([c9sell].foldl (avgStep 2025) avgInit).positions k).1) ∧
      (avgStep 2025 c9state c9sell).positions c9sell.isin = (0, 0) :=
  ⟨C9_avg_pool_invariant.1 2025 [c9sell] [c9sell] [] rfl
      (by
        intro tr htr q hq
        simp only [List.mem_singleton] at htr
        subst htr
        simp only [c9sell] at hq
        injection hq with h
        rw [← h]
        norm_num),
    C9_avg_pool_invariant.2 2025 c9state c9sell 1 10 rfl rfl rfl
      (by norm_num [avgStep, c9state, c9sell, feeOr0, eps9, apply_ite AvgState.positions])⟩

/-! ## Claim C10: FIFO frame conditions -/

/-- C10: in the FIFO engine a buy with `shares` and `total` present
appends the lot `(shares, |total|)` to its instrument's queue no matter
which year it falls in (the step does not depend on the requested year
and changes nothing but that one queue); an off-year sell, and any trade
with `shares` or `total` absent, leaves the whole state — every lot
queue, the realized buckets, `per_sale` and `warnings` — unchanged. -/
theorem C10_fifo_frame :
    (∀ (year y' : ℤ) (s : FifoState) (tr : Trade) (sh tot : ℚ),
        tr.side = Side.buy → tr.shares = some sh → tr.total = some tot →
        fifoStep year s tr =
          { s with positions := fun k =>
              if k = tr.isin then s.positions tr.isin ++ [(sh, |tot|)] else s.positions k } ∧
          fifoStep year s tr = fifoStep y' s tr) ∧
      (∀ (year : ℤ) (s : FifoState) (tr : Trade),
          tr.side = Side.sell → tr.timestamp.year ≠ year → fifoStep year s tr = s) ∧
      (∀ (year : ℤ) (s : FifoState) (tr : Trade),
          tr.shares = none ∨ tr.total = none → fifoStep year s tr = s) := by
  refine ⟨?_, fifoStep_offyear_sell, ?_⟩
  · intro year y' s tr sh tot hside hsh htot
    constructor <;> simp [fifoStep, hside, hsh, htot]
  · intro year s tr h
    cases hside : tr.side with
    | buy =>
      rcases h with h | h
      · simp [fifoStep, hside, h]
      · cases hsh : tr.shares <;> simp [fifoStep, hside, h, hsh]
    | sell =>
      by_cases hy : tr.timestamp.year = year
      · rcases h with h | h
        · simp [fifoStep, hside, hy, h]
        · cases hsh : tr.shares <;> simp [fifoStep, hside, hy, h, hsh]
      · exact fifoStep_offyear_sell year s tr hside hy

/-- A buy in a different year than requested, used to witness the frame
claim. -/
def c10buy : Trade :=
  { timestamp := { year := 2020, sub := "b" }, side := Side.buy, isin := some ("X1"),
    instrument_type := "stock", shares := some 3, price := none, total := some (-30),
    fee := none, title := none }

/-- A sell lacking its `total`, used to witness the frame claim. -/
def c10badsell : Trade :=
  { timestamp := { year := 2025, sub := "s" }, side := Side.sell, isin := some ("X1"),
    instrument_type := "stock", shares := some 1, price := none, total := none,
    fee := none, title := none }

/-- Witness for C10: the off-year buy is appended (identically for two
different requested years), the off-year sell and the `total`-less sell
are skipped. -/
theorem C10_fifo_frame_witness :
    (fifoStep 2025 fifoInit c10buy =
        { fifoInit with positions := fun k =>
            if k = c10buy.isin then fifoInit.positions c10buy.isin ++ [(3, |(-30 : ℚ)|)]
            else fifoInit.positions k } ∧
      fifoStep 2025 fifoInit c10buy = fifoStep 2024 fifoInit c10buy) ∧
      fifoStep 2025 fifoInit c2sell = fifoInit ∧
      fifoStep 2025 fifoInit c10badsell = fifoInit :=
  ⟨(C10_fifo_frame.1 2025 2024 fifoInit c10buy 3 (-30) rfl rfl rfl),
    C10_fifo_frame.2.1 2025 fifoInit c2sell rfl (by decide),
    C10_fifo_frame.2.2 2025 fifoInit c10badsell (Or.inr rfl)⟩

/-! ## Canonical decimal rendering (Python `str` of a float)

Modelled stdlib: CPython renders a float as its shortest decimal form —
sign, integer digits, a decimal point and the minimal fraction digits
(`str(35.0) = '35.0'`, `str(3.5) = '3.5'`).  For the decimal-valued
rationals our float model produces, that is the minimal `k` with
`den ∣ 10^k` fraction digits.  (Scientific notation for very large/small
magnitudes is not modelled.) -/

/-- Big-endian decimal digit characters of `n` (`'0'` for zero). -/
def natToChars (n : ℕ) : List Char :=
  if n = 0 then ['0'] else ((Nat.digits 10 n).map Nat.digitChar).reverse

/-- Search for the least `k` (starting at `k`, trying `fuel` values)
with `d ∣ 10^k`; `0` when the search space is exhausted. -/
def decExpGo (d : ℕ) : ℕ → ℕ → ℕ
  | 0, _ => 0
  | fuel + 1, k => if d ∣ 10 ^ k then k else decExpGo d fuel (k + 1)

/-- The number of fraction digits: the least `k` with `den ∣ 10^k`
(searched up to `den`, which suffices; `0` when none exists, i.e. when
the value is not a decimal fraction). -/
def decExp (x : ℚ) : ℕ := decExpGo x.den (x.den + 1) 0

/-- Characters of the canonical decimal rendering of `x`. -/
def renderChars (x : ℚ) : List Char :=
  let k := decExp x
  let m := x.num.natAbs * 10 ^ k / x.den
  let fds := natToChars (m % 10 ^ k)
  (if x < 0 then ['-'] else []) ++
    natToChars (m / 10 ^ k) ++ '.' :: (List.replicate (k - fds.length) '0' ++ fds)

/-- Canonical decimal rendering of `x` (Python `str` of the float). -/
def renderDecimal (x : ℚ) : String := String.mk (renderChars x)

example : renderDecimal (7 / 2) = "3.5" := by
  norm_num [renderDecimal, renderChars, decExp, decExpGo, natToChars, Nat.digitChar]

/-! ## Raw timeline records

A JSON-like value: what `json.load` produces for a timeline record.
Python dicts are ordered association lists with string keys (JSON keys
are strings); `null` doubles as Python `None`.  One model limitation:
JSON integers and floats both land in `num` (their `str()` renderings
are reconciled by rendering integral values without a fraction part). -/
inductive Value where
  | null
  | bool (b : Bool)
  | num (q : ℚ)
  | str (s : String)
  | list (items : List Value)
  | dict (entries : List (String × Value))

/-- Python truthiness: `None`, `False`, `0`, `''`, `[]`, `{}` are falsy. -/
def Value.truthy : Value → Bool
  | .null => false
  | .bool b => b
  | .num q => !(q = 0 : Bool)
  | .str s => !s.isEmpty
  | .list items => !items.isEmpty
  | .dict entries => !entries.isEmpty

/-- `x or y` on Python values. -/
def pyOr (a b : Value) : Value := if a.truthy then a else b

/-- Association-list lookup with default (Python `dict.get(k, d)` once
the receiver is known to be a dict). -/
def findD (es : List (String × Value)) (k : String) (d : Value) : Value :=
  match es.find? (fun e => e.1 = k) with
  | some e => e.2
  | none => d

/-- `v.get(k)`: `AttributeError` unless `v` is a dict; missing keys give
`None`. -/
def pyGet (v : Value) (k : String) : Except String Value :=
  match v with
  | .dict es => .ok (findD es k .null)
  | _ => .error ("AttributeError")

/-- `v.get(k, d)`: `AttributeError` unless `v` is a dict. -/
def pyGetD (v : Value) (k : String) (d : Value) : Except String Value :=
  match v with
  | .dict es => .ok (findD es k d)
  | _ => .error ("AttributeError")

/-- ASCII lowering of one character (Python `str.lower` restricted to
the ASCII range; the German keywords involved are ASCII). -/
def lowerChar (c : Char) : Char :=
  if 'A' ≤ c ∧ c ≤ 'Z' then Char.ofNat (c.toNat + 32) else c

/-- Lowercase a string, ASCII-wise. -/
def lowerStr (s : String) : String := String.mk (s.toList.map lowerChar)

/-- `(v or '').lower()`: requires a string (or a falsy value) — anything
else raises `AttributeError` on `.lower()`. -/
def pyLowerOrEmpty (v : Value) : Except String String :=
  match pyOr v (.str ("")) with
  | .str s => .ok (lowerStr s)
  | _ => .error ("AttributeError")

/-- Does `needle` start `hay`? -/
def startsWith : List Char → List Char → Bool
  | [], _ => true
  | _ :: _, [] => false
  | a :: as, b :: bs => a = b && startsWith as bs

/-- Python `needle in hay` for strings: contiguous substring. -/
def containsSub (needle : List Char) : List Char → Bool
  | [] => needle.isEmpty
  | c :: rest => startsWith needle (c :: rest) || containsSub needle rest

/-- `needle in hay` on `String`s. -/
def strIn (needle hay : String) : Bool := containsSub needle.toList hay.toList

mutual

/-- `find_instrument_type` from both scripts: depth-first search for an
`instrumentType` key; a dict hit returns its value (even a falsy one),
recursive hits are kept only when truthy. -/
def find_instrument_type : Value → Value
  | .dict es =>
    match es.find? (fun e => e.1 = "instrumentType") with
    | some e => e.2
    | none => fitEntries es
  | .list items => fitList items
  | _ => .null

/-- Walk a dict's values (`for v in obj.values()`). -/
def fitEntries : List (String × Value) → Value
  | [] => .null
  | e :: es =>
    let f := find_instrument_type e.2
    if f.truthy then f else fitEntries es

/-- Walk a list's items (`for v in obj`). -/
def fitList : List Value → Value
  | [] => .null
  | v :: vs =>
    let f := find_instrument_type v
    if f.truthy then f else fitList vs

end

mutual

/-- Modelled stdlib: Python `repr` of a JSON-ish value (string escaping
is not modelled — quotes are merely wrapped). -/
def pyRepr : Value → String
  | .null => "None"
  | .bool b => if b then "True" else "False"
  | .num q => if q.den = 1 then toString q.num else renderDecimal q
  | .str s => "'" ++ s ++ "'"
  | .list items => "[" ++ String.intercalate (", ") (reprList items) ++ "]"
  | .dict es => "\x7b" ++ String.intercalate (", ") (reprEntries es) ++ "\x7d"

/-- `repr` of each list element. -/
def reprList : List Value → List String
  | [] => []
  | v :: vs => pyRepr v :: reprList vs

/-- `repr` of each dict entry. -/
def reprEntries : List (String × Value) → List String
  | [] => []
  | e :: es => ("'" ++ e.1 ++ "': " ++ pyRepr e.2) :: reprEntries es

end

/-- Modelled stdlib: Python `str()` — identity on strings, `repr`-like
elsewhere. -/
def pyStr (v : Value) : String :=
  match v with
  | .str s => s
  | _ => pyRepr v

/-- Lift a value to the argument of `parse_money` / `parse_shares`:
Python `None` stays `None`, anything else goes through `str()`. -/
def pyStrOpt (v : Value) : Option String :=
  match v with
  | .null => none
  | _ => some (pyStr v)

/-- `v == s` for a Python value against a string literal (equal only when
`v` is that string). -/
def valueEqStr (v : Value) (s : String) : Bool :=
  match v with
  | .str t => t = s
  | _ => false

/-- Is the value Python `None`? -/
def Value.isNull : Value → Bool
  | .null => true
  | _ => false

/-- Python `for x in v`: lists yield items, strings yield one-character
strings, dicts yield their keys; everything else raises `TypeError`. -/
def pyIter (v : Value) : Except String (List Value) :=
  match v with
  | .list items => .ok items
  | .str s => .ok (s.toList.map (fun c => Value.str (String.mk [c])))
  | .dict es => .ok (es.map (fun e => Value.str e.1))
  | _ => .error ("TypeError")

/-- `x = x or y` on optional floats (`shares = shares or ...`): a present
but zero value is falsy and gets replaced. -/
def pyOrQ (a b : Option ℚ) : Option ℚ :=
  match a with
  | some q => if q = 0 then b else a
  | none => b

/-- `ts_raw.replace('+0000', '+00:00')`: Python's leftmost,
non-overlapping replace, specialized to the one pattern the code uses. -/
def replacePlus0000 : List Char → List Char
  | '+' :: '0' :: '0' :: '0' :: '0' :: rest =>
    '+' :: '0' :: '0' :: ':' :: '0' :: '0' :: replacePlus0000 rest
  | c :: rest => c :: replacePlus0000 rest
  | [] => []

/-- Modelled stdlib: `datetime.fromisoformat` on the export's uniform
`YYYY-MM-DD...` strings — the year is the leading four digits and the
whole normalized string is kept as the chronological sort key; other
shapes raise `ValueError`.  (The full ISO-8601 grammar is not
modelled.) -/
def fromisoformat (s : String) : Except String Timestamp :=
  match s.toList with
  | y1 :: y2 :: y3 :: y4 :: '-' :: m1 :: m2 :: '-' :: d1 :: d2 :: _ =>
    if y1.isDigit ∧ y2.isDigit ∧ y3.isDigit ∧ y4.isDigit ∧
        m1.isDigit ∧ m2.isDigit ∧ d1.isDigit ∧ d2.isDigit then
      .ok { year := ((digitsVal [y1, y2, y3, y4] : ℕ) : ℤ), sub := s }
    else .error ("ValueError")
  | _ => .error ("ValueError")

/-- The fields accumulated by the section walk apart from the ISIN (the
entry loop never writes the ISIN, which the Lean split makes
structural). -/
structure Fields where
  instrument_type : Value
  shares : Option ℚ
  price : Option ℚ
  fee : Option ℚ
  total : Option ℚ

/-- Full accumulator of the section walk. -/
structure WalkState where
  isin : Option String
  fields : Fields

/-! The `<qty> × <price>` fallback regex
`(-?\d+[\.,]?\d*)\s*×\s*(-?\d+[\.,]?\d*)`, with the backtracking the
Python engine performs on the first group's optional fraction. -/

/-- Second capture group `-?\d+[\.,]?\d*` (greedy, nothing follows). -/
def matchG2 (cs : List Char) : Option (List Char) :=
  let sp : Bool × List Char :=
    match cs with
    | '-' :: r => (true, r)
    | _ => (false, cs)
  let (d1, r2) := takeDigits sp.2
  if d1 = [] then none
  else
    let sep : List Char × List Char :=
      match r2 with
      | '.' :: r => (['.'], r)
      | ',' :: r => ([','], r)
      | _ => ([], r2)
    let (d2, _) := takeDigits sep.2
    some ((if sp.1 then ['-'] else []) ++ d1 ++ sep.1 ++ d2)

/-- After the first group: `\s*×\s*` then the second group. -/
def tryTail (rest : List Char) : Option (List Char) :=
  match rest.dropWhile isPySpace with
  | '×' :: r2 => matchG2 (r2.dropWhile isPySpace)
  | _ => none

/-- Backtrack the first group's fraction digits from `i` down to `0`. -/
def tryFracLen (pre : List Char) (sep : Char) (ds2 rest : List Char) : ℕ → Option (List Char × List Char)
  | i =>
    match tryTail (ds2.drop i ++ rest) with
    | some g2 => some (pre ++ sep :: ds2.take i, g2)
    | none => if h : i = 0 then none else tryFracLen pre sep ds2 rest (i - 1)
termination_by i => i
decreasing_by omega

/-- One attempt of the whole `×` pattern at the current position,
returning both capture groups. -/
def matchTimesAt (cs : List Char) : Option (List Char × List Char) :=
  let sp : Bool × List Char :=
    match cs with
    | '-' :: r => (true, r)
    | _ => (false, cs)
  let (d1, r2) := takeDigits sp.2
  if d1 = [] then none
  else
    let pre := (if sp.1 then ['-'] else []) ++ d1
    match r2 with
    | '.' :: r3 =>
      let (ds2, r4) := takeDigits r3
      match tryFracLen pre '.' ds2 r4 ds2.length with
      | some res => some res
      | none => (tryTail r2).map (fun g2 => (pre, g2))
    | ',' :: r3 =>
      let (ds2, r4) := takeDigits r3
      match tryFracLen pre ',' ds2 r4 ds2.length with
      | some res => some res
      | none => (tryTail r2).map (fun g2 => (pre, g2))
    | _ => (tryTail r2).map (fun g2 => (pre, g2))

/-- Modelled stdlib: `re.search` of the `×` pattern — leftmost match. -/
def timesSearch : List Char → Option (List Char × List Char)
  | [] => none
  | c :: cs =>
    match matchTimesAt (c :: cs) with
    | some r => some r
    | none => timesSearch cs

/-- One row of a nested transaction table (lines 114–123): read the
row's title and display value, then overwrite `shares` / `price` /
first-match `total` on a label hit.  `row.get('title')` raises on a
non-dict row (the `isinstance` guard on the next line comes too late);
the display value is computed before any label check. -/
def rowStep (f : Fields) (row : Value) : Except String Fields := do
  let t ← pyGet row ("title")
  let rtitle := pyOr t (.str (""))
  let rdetail := match row with
    | .dict es => findD es ("detail") (.dict [])
    | _ => .dict []
  let dv ← pyGetD rdetail ("displayValue") (.dict [])
  let t1 ← pyGet dv ("text")
  let t2 ← pyGet rdetail ("text")
  let val := pyOr t1 t2
  if valueEqStr rtitle ("Aktien") || valueEqStr rtitle ("Stück") || valueEqStr rtitle ("Anteile") then
    pure { f with shares := parse_shares (pyStrOpt val) }
  else if valueEqStr rtitle ("Aktienkurs") || valueEqStr rtitle ("Preis") ||
      valueEqStr rtitle ("Ausführungskurs") then
    pure { f with price := parse_money (pyStrOpt val) }
  else if valueEqStr rtitle ("Summe") ∧ f.total = none then
    pure { f with total := parse_money (pyStrOpt val) }
  else
    pure f

/-- One section of a nested transaction payload (lines 111–123): skip
non-`table` sections, fold the rows otherwise. -/
def tableSecStep (f : Fields) (s2 : Value) : Except String Fields := do
  let ty ← pyGet s2 ("type")
  if ¬ valueEqStr ty ("table") then pure f
  else do
    let d ← pyGetD s2 ("data") (.list [])
    let rows ← pyIter d
    rows.foldlM rowStep f

/-- One entry of an overview section's `data` list (lines 94–131). -/
def entryStep (f : Fields) (entry : Value) : Except String Fields := do
  let t ← pyGet entry ("title")
  let title := pyOr t (.str (""))
  let detail := match entry with
    | .dict es => findD es ("detail") (.dict [])
    | _ => .dict []
  let it := pyOr (pyOr f.instrument_type (find_instrument_type detail)) (find_instrument_type entry)
  let f := { f with instrument_type := it }
  let f ← if valueEqStr title ("Gebühr") then do
      let dv ← pyGetD detail ("displayValue") (.dict [])
      let t1 ← pyGet dv ("text")
      let t2 ← pyGet detail ("text")
      pure { f with fee := parse_money (pyStrOpt (pyOr t1 t2)) }
    else pure f
  let f ← if valueEqStr title ("Summe") then do
      let dv ← pyGetD detail ("displayValue") (.dict [])
      let t1 ← pyGet dv ("text")
      let t2 ← pyGet detail ("text")
      pure { f with total := parse_money (pyStrOpt (pyOr t1 t2)) }
    else pure f
  let act ← pyGet detail ("action")
  let inner := match act with
    | .dict es => findD es ("payload") .null
    | _ => .null
  let f ← match inner with
    | .dict pes => do
      let sl ← pyIter (findD pes ("sections") (.list []))
      sl.foldlM tableSecStep f
    | _ => pure f
  let txt := match detail with
    | .dict es => findD es ("text") .null
    | _ => .null
  if txt.truthy then
    match txt with
    | .str tstr =>
      if strIn ("×") tstr then
        match timesSearch tstr.toList with
        | some g =>
          pure { f with shares := pyOrQ f.shares (parse_shares (some (String.mk g.1))),
                        price := pyOrQ f.price (parse_money (some (String.mk g.2))) }
        | none => pure f
      else pure f
    | .list items =>
      if items.any (fun v => valueEqStr v ("×")) then .error ("TypeError") else pure f
    | .dict es =>
      if es.any (fun e => e.1 = "×") then .error ("TypeError") else pure f
    | _ => .error ("TypeError")
  else pure f

/-- The candidate ISIN a section carries: the 12-character string payload
of its header action (lines 86–89), when the section is a dict. -/
def payload12 (sec : Value) : Option String :=
  match sec with
  | .dict es =>
    match findD es ("action") .null with
    | .dict aes =>
      match findD aes ("payload") .null with
      | .str p => if p.length = 12 then some p else none
      | _ => none
    | _ => none
  | _ => none

/-- One section of the details walk (lines 84–131): pick up the header
payload as ISIN (plain reassignment), then fold the entry list when the
section's `data` is a list. -/
def walkSection (st : WalkState) (sec : Value) : Except String WalkState := do
  let a ← pyGet sec ("action")
  let act := pyOr a (.dict [])
  let payload := match act with
    | .dict es => findD es ("payload") .null
    | _ => .null
  let isin' := match payload with
    | .str p => if p.length = 12 then some p else st.isin
    | _ => st.isin
  let d ← pyGet sec ("data")
  match d with
  | .list entries => (entries.foldlM entryStep st.fields).map (fun f => WalkState.mk isin' f)
  | _ => pure (WalkState.mk isin' st.fields)

/-- The trade dict `parse_trade_event` returns: optional fields stay
optional, `instrument_type` and `total` can be arbitrary values found in
the record, `title` is whatever the record carries. -/
structure ParsedTrade where
  timestamp : Option Timestamp
  side : Side
  isin : Option String
  instrument_type : Value
  shares : Option ℚ
  price : Option ℚ
  total : Value
  fee : Option ℚ
  title : Value

/-- `parse_trade_event` (lines 56–154 of both scripts). -/
def parse_trade_event (ev : Value) : Except String (Option ParsedTrade) := do
  let sv ← pyGet ev ("subtitle")
  let subtitle ← pyLowerOrEmpty sv
  if strIn ("storniert") subtitle || strIn ("abgebrochen") subtitle ||
      strIn ("abgelaufen") subtitle then
    pure none
  else do
    let stv ← pyGet ev ("status")
    let status ← pyLowerOrEmpty stv
    if status ≠ "" ∧ status ≠ "executed" then pure none
    else
      match (if strIn ("verkauf") subtitle || strIn ("sell") subtitle then some Side.sell
            else if strIn ("kauf") subtitle || strIn ("buy") subtitle then some Side.buy
            else none) with
      | none => pure none
      | some side => do
        let tsRaw ← pyGet ev ("timestamp")
        let ts ← if tsRaw.truthy then
            match tsRaw with
            | .str s =>
              (fromisoformat (String.mk (replacePlus0000 s.toList))).map some
            | _ => Except.error ("AttributeError")
          else pure (none : Option Timestamp)
        let amount ← pyGetD ev ("amount") (.dict [])
        let amount_net ← pyGet amount ("value")
        let details ← pyGetD ev ("details") (.dict [])
        let sections ← pyGetD details ("sections") (.list [])
        let secList ← pyIter sections
        let st ← secList.foldlM walkSection
          (WalkState.mk none (Fields.mk .null none none none none))
        let instrument_type := pyOr st.fields.instrument_type (.str ("stock"))
        let total : Value := match st.fields.total with
          | some q => .num q
          | none => amount_net
        let fee : Option ℚ := match st.fields.fee with
          | some q => some q
          | none =>
            if ¬total.isNull ∧ ¬amount_net.isNull ∧ side = Side.buy then some 0 else none
        let title ← pyGet ev ("title")
        pure (some
          { timestamp := ts, side := side, isin := st.isin,
            instrument_type := instrument_type, shares := st.fields.shares,
            price := st.fields.price, total := total, fee := fee, title := title })

/-! ## Claim C4: extractor robustness

The code intends graceful degradation (it guards `isinstance(entry,
dict)` when reading `entry['detail']`), but reads `entry.get('title')`
on the line before without that guard, and `ev.get('amount', {})`
returns a present-but-`None` value on which `.get('value')` raises.
Both slips raise `AttributeError` where the spec (and the adjacent
guards) promise `None`/unset. -/

/-- A mapping record whose section `data` list holds a non-dict entry
(`'oops'`): `entry.get('title')` raises. -/
def c4rec : Value :=
  .dict [("subtitle", .str ("Kauforder")),
         ("details", .dict [("sections", .list [ .dict [("data", .list [.str ("oops")])] ])])]

/-- A mapping record with a `None`-valued `amount` field:
`ev.get('amount', {})` returns `None` and `.get('value')` raises. -/
def c4rec2 : Value :=
  .dict [("subtitle", .str ("Kauforder")), ("amount", .null)]

/-- C4 (code bug): `parse_trade_event` raises `AttributeError` on a
non-dict entry in a section's `data` list and on a `None`-valued
`amount` field, instead of degrading to `None`/unset as the spec states
and the neighbouring `isinstance` guards intend. -/
theorem C4_parse_raises_codebug :
    parse_trade_event c4rec = .error ("AttributeError") ∧
      parse_trade_event c4rec2 = .error ("AttributeError") :=
  ⟨rfl, rfl⟩

/-! ## Claim C6: which candidate wins per field

The extractor assigns `isin = payload` and `shares = parse_shares(val)`
by plain reassignment, so the LAST matching section / table row wins;
only `instrument_type`, the table-row `total` fallback and the `×`-text
fallback are first-match-wins. -/

/-- A table row labeled `Aktien` carrying the share count `v`. -/
def sharesRow (v : String) : Value :=
  .dict [("title", .str ("Aktien")), ("detail", .dict [("text", .str v)])]

/-- A record with two 12-character header payloads (`AAAAAAAAAAAA` then
`BBBBBBBBBBBB`) and two `Aktien` rows (`3` then `7`). -/
def c6rec : Value :=
  .dict [("subtitle", .str ("Kauforder")),
         ("details", .dict [("sections", .list
           [ .dict [("action", .dict [("payload", .str ("AAAAAAAAAAAA"))])],
             .dict [("action", .dict [("payload", .str ("BBBBBBBBBBBB"))])],
             .dict [("data", .list
               [ .dict [("title", .str ("Transaktion")),
                        ("detail", .dict [("action", .dict [("payload", .dict
                          [("sections", .list [ .dict [("type", .str ("table")),
                            ("data", .list [sharesRow ("3"), sharesRow ("7")])] ])])])])] ])] ])])]

/-- C6 counterexample: on `c6rec` the extractor returns the SECOND
payload as `instrument_id` and the SECOND row's value as `shares` — the
first match does not win. -/
theorem C6_first_match_counterexample :
    (parse_trade_event c6rec).map (fun r => r.map (fun t => t.isin))
        = .ok (some (some ("BBBBBBBBBBBB"))) ∧
      (("BBBBBBBBBBBB" : String) ≠ ("AAAAAAAAAAAA" : String)) ∧
      (parse_trade_event c6rec).map (fun r => r.map (fun t => t.shares))
        = .ok (some (parse_shares (some ("7")))) ∧
      parse_shares (some ("7")) = some ((7 : ℚ)) ∧ ((7 : ℚ) ≠ 3) := by
  refine ⟨rfl, by decide, rfl, ?_, by norm_num⟩
  simp [parse_shares, removeChar, mapChar, pyFloat, pyFloat.pyFloatExp, signSplitQ, signSplitZ,
    fracSplit, takeDigits, digitsVal, digitVal, isPySpace] <;> norm_num

/-- The ISIN update a single section performs, as a function of its
header payload. -/
theorem isinCalc (es : List (String × Value)) (st0 : Option String) :
    (match (match pyOr (findD es ("action") Value.null) (.dict []) with
            | Value.dict es2 => findD es2 ("payload") Value.null
            | _ => Value.null) with
      | Value.str p => if p.length = 12 then some p else st0
      | _ => st0) = (payload12 (.dict es)).or st0 := by
  simp only [payload12]
  rcases hact : findD es ("action") Value.null with _ | b | q | s | its | aes <;>
    simp only [hact, pyOr, Value.truthy]
  · simp [findD]
  · cases b <;> simp [findD]
  · by_cases hq : q = 0 <;> simp [hq, findD]
  · by_cases hs : s.isEmpty <;> simp [hs, findD]
  · by_cases hl : its.isEmpty <;> simp [hl, findD]
  · by_cases ha : aes.isEmpty
    · have : aes = [] := by simpa [List.isEmpty_iff] using ha
      subst this
      simp [findD]
    · simp only [ha, Bool.not_false, if_true]
      rcases hp : findD aes ("payload") Value.null with _ | b2 | q2 | p | its2 | des2 <;>
        simp [hp]
      by_cases h12 : p.length = 12 <;> simp [h12]

theorem walkSection_isin (st st' : WalkState) (sec : Value)
    (h : walkSection st sec = .ok st') : st'.isin = (payload12 sec).or st.isin := by
  cases sec with
  | dict es =>
    simp only [walkSection, pyGet, bind, Except.bind, Except.map] at h
    split at h
    · split at h
      · exact absurd h (by simp)
      · injection h with h'
        subst h'
        exact isinCalc es st.isin
    · simp only [pure, Except.pure] at h
      injection h with h'
      subst h'
      exact isinCalc es st.isin
  | null => simp [walkSection, pyGet, bind, Except.bind] at h
  | bool b => simp [walkSection, pyGet, bind, Except.bind] at h
  | num q => simp [walkSection, pyGet, bind, Except.bind] at h
  | str s => simp [walkSection, pyGet, bind, Except.bind] at h
  | list l => simp [walkSection, pyGet, bind, Except.bind] at h

theorem walk_isin_last (sections : List Value) :
    ∀ (st st' : WalkState), sections.foldlM walkSection st = .ok st' →
      st'.isin = ((sections.filterMap payload12).getLast?).or st.isin := by
  induction sections with
  | nil =>
    intro st st' h
    simp only [List.foldlM_nil, pure, Except.pure] at h
    injection h with h'
    subst h'
    simp
  | cons sec rest ih =>
    intro st st' h
    simp only [List.foldlM_cons, bind, Except.bind] at h
    rcases hsec : walkSection st sec with e | st1 <;> rw [hsec] at h
    · exact absurd h (by simp)
    · have h1 := walkSection_isin st st1 sec hsec
      have h2 := ih st1 st' h
      rw [h2, h1]
      rcases hp : payload12 sec with _ | p
      · simp [List.filterMap_cons, hp]
      · rcases hlast : (rest.filterMap payload12).getLast? with _ | q
        · have hnil : rest.filterMap payload12 = [] := by
            cases hfm : rest.filterMap payload12 with
            | nil => rfl
            | cons a as => rw [hfm] at hlast; simp [List.getLast?] at hlast
          simp [List.filterMap_cons, hp, hnil, Option.or]
        · obtain ⟨a, as, hfm⟩ : ∃ a as, rest.filterMap payload12 = a :: as := by
            cases hfm : rest.filterMap payload12 with
            | nil => rw [hfm] at hlast; simp at hlast
            | cons a as => exact ⟨a, as, rfl⟩
          simp only [List.filterMap_cons, hp, hfm, List.getLast?_cons_cons]
          rw [← hfm, hlast]
          simp [Option.or]

/-- C6 (amended): the extractor assigns `isin` and `shares` by plain
reassignment, so when several candidate locations supply the same field
the LAST match in document order wins for these fields: after a
successful section walk the ISIN is the last 12-character header payload
(falling back to the prior value), and with two share-labeled rows the
shares come from the last such row. -/
theorem C6_last_match_wins :
    (∀ (sections : List Value) (st st' : WalkState),
        sections.foldlM walkSection st = .ok st' →
        st'.isin = ((sections.filterMap payload12).getLast?).or st.isin) ∧
      (parse_trade_event c6rec).map (fun r => r.map (fun t => t.shares))
          = .ok (some (parse_shares (some ("7")))) ∧
      parse_shares (some ("7")) = some ((7 : ℚ)) := by
  refine ⟨walk_isin_last, rfl, ?_⟩
  simp [parse_shares, removeChar, mapChar, pyFloat, pyFloat.pyFloatExp, signSplitQ, signSplitZ,
    fracSplit, takeDigits, digitsVal, digitVal, isPySpace] <;> norm_num

/-- The two header sections of `c6rec`, walked on their own. -/
def c6headers : List Value :=
  [ .dict [("action", .dict [("payload", .str ("AAAAAAAAAAAA"))])],
    .dict [("action", .dict [("payload", .str ("BBBBBBBBBBBB"))])] ]

/-- The walk state before the headers. -/
def c6w0 : WalkState := WalkState.mk none (Fields.mk .null none none none none)

/-- The walk state after the headers: the second payload won. -/
def c6w1 : WalkState :=
  WalkState.mk (some ("BBBBBBBBBBBB")) (Fields.mk .null none none none none)

/-- Witness for C6 (amended) on the two concrete header sections. -/
theorem C6_last_match_wins_witness :
    c6headers.foldlM walkSection c6w0 = .ok c6w1 ∧
      c6w1.isin = ((c6headers.filterMap payload12).getLast?).or c6w0.isin :=
  ⟨rfl, C6_last_match_wins.1 c6headers c6w0 c6w1 rfl⟩

/-! ## Claim C8: the trade loader

The timestamp order: Python sorts the trades by their `datetime` key;
for the export's uniform ISO format that order is the (year, normalized
string) lexicographic order modelled by `tsLe`.  `list.sort` is stable
(Timsort). -/

theorem charToNat_inj (a b : Char) (h : a.toNat = b.toNat) : a = b :=
  Char.eq_of_val_eq (UInt32.eq_of_val_eq (Fin.val_injective h))

def lexLe : List Char → List Char → Bool
  | [], _ => true
  | _ :: _, [] => false
  | a :: as, b :: bs => if a = b then lexLe as bs else decide (a.toNat < b.toNat)

def tsLe (a b : Timestamp) : Bool :=
  if a.year = b.year then lexLe a.sub.toList b.sub.toList else decide (a.year < b.year)

theorem lexLe_total : ∀ x y : List Char, lexLe x y = true ∨ lexLe y x = true := by
  intro x
  induction x with
  | nil => intro y; left; rfl
  | cons a as ih =>
    intro y
    cases y with
    | nil => right; rfl
    | cons b bs =>
      by_cases hab : a = b
      · subst hab
        rcases ih bs with h | h
        · left; simp [lexLe, h]
        · right; simp [lexLe, h]
      · have hba : b ≠ a := fun hc => hab hc.symm
        have hne : a.toNat ≠ b.toNat := fun hc => hab (charToNat_inj a b hc)
        rcases Nat.lt_or_ge a.toNat b.toNat with h | h
        · left; simp [lexLe, hab, h]
        · right
          have : b.toNat < a.toNat := lt_of_le_of_ne h (by omega)
          simp [lexLe, hba, this]

theorem lexLe_trans : ∀ x y z : List Char,
    lexLe x y = true → lexLe y z = true → lexLe x z = true := by
  intro x
  induction x with
  | nil => intro y z _ _; rfl
  | cons a as ih =>
    intro y z hxy hyz
    cases y with
    | nil => simp [lexLe] at hxy
    | cons b bs =>
      cases z with
      | nil => simp [lexLe] at hyz
      | cons c cs =>
        simp only [lexLe] at hxy hyz ⊢
        by_cases hab : a = b
        · subst hab
          simp only [if_pos rfl] at hxy
          by_cases hbc : a = c
          · subst hbc
            simp only [if_pos rfl] at hyz ⊢
            exact ih bs cs hxy hyz
          · simp only [if_neg hbc] at hyz ⊢
            exact hyz
        · simp only [if_neg hab] at hxy
          by_cases hbc : b = c
          · subst hbc
            simp [if_neg hab]
            simpa using hxy
          · simp only [if_neg hbc] at hyz
            have h1 : a.toNat < b.toNat := by simpa using hxy
            have h2 : b.toNat < c.toNat := by simpa using hyz
            have hac : a ≠ c := by
              intro hc; subst hc; omega
            simp [if_neg hac]
            omega

theorem tsLe_total (a b : Timestamp) : tsLe a b = true ∨ tsLe b a = true := by
  by_cases h : a.year = b.year
  · simp only [tsLe, h, eq_self_iff_true, if_true]
    exact lexLe_total _ _
  · have h' : b.year ≠ a.year := fun hc => h hc.symm
    simp only [tsLe, if_neg h, if_neg h', decide_eq_true_eq]
    omega

theorem tsLe_trans (a b c : Timestamp) (h1 : tsLe a b = true) (h2 : tsLe b c = true) :
    tsLe a c = true := by
  unfold tsLe at h1 h2 ⊢
  by_cases hab : a.year = b.year <;> by_cases hbc : b.year = c.year
  · rw [if_pos hab] at h1
    rw [if_pos hbc] at h2
    rw [if_pos (hab.trans hbc)]
    exact lexLe_trans _ _ _ h1 h2
  · rw [if_neg hbc] at h2
    rw [if_neg (hab ▸ hbc)]
    simpa [hab] using h2
  · rw [if_neg hab] at h1
    rw [if_neg (hbc ▸ hab)]
    simpa [← hbc] using h1
  · rw [if_neg hab] at h1
    rw [if_neg hbc] at h2
    have g1 : a.year < b.year := by simpa using h1
    have g2 : b.year < c.year := by simpa using h2
    have : a.year ≠ c.year := by omega
    rw [if_neg this]
    simp
    omega

theorem lexLe_refl : ∀ x : List Char, lexLe x x = true := by
  intro x
  induction x with
  | nil => rfl
  | cons a as ih => simp [lexLe, ih]

theorem tsLe_refl (a : Timestamp) : tsLe a a = true := by
  simp [tsLe, lexLe_refl]

/-- Sort key of a parsed trade (the loader may only sort lists whose
timestamps are all present; the default is never reached there). -/
def tsKey (t : ParsedTrade) : Timestamp := t.timestamp.getD (Timestamp.mk 0 (""))

/-- The loader's sort relation: comparison of the timestamp keys. -/
def tradeR (a b : ParsedTrade) : Prop := tsLe (tsKey a) (tsKey b) = true

instance : DecidableRel tradeR := fun a b => by unfold tradeR; infer_instance

theorem orderedInsert_filter (a : ParsedTrade) (l : List ParsedTrade) (k : Timestamp) :
    (l.orderedInsert tradeR a).filter (fun t => decide (tsKey t = k))
      = if tsKey a = k then a :: l.filter (fun t => decide (tsKey t = k))
        else l.filter (fun t => decide (tsKey t = k)) := by
  induction l with
  | nil =>
    simp only [List.orderedInsert_nil, List.filter]
    by_cases hak : tsKey a = k <;> simp [hak]
  | cons b bs ih =>
    simp only [List.orderedInsert]
    by_cases hr : tradeR a b
    · rw [if_pos hr]
      by_cases hak : tsKey a = k <;> simp [List.filter_cons, hak]
    · rw [if_neg hr]
      have hk : tsKey b ≠ k ∨ tsKey a ≠ k := by
        by_cases hak : tsKey a = k
        · left
          intro hbk
          exact hr (by unfold tradeR; rw [hbk, hak]; exact tsLe_refl k)
        · right; exact hak
      simp only [List.filter_cons, ih]
      by_cases hak : tsKey a = k <;> by_cases hbk : tsKey b = k <;>
        simp [hak, hbk]
      rcases hk with h | h
      · exact absurd hbk h
      · exact absurd hak h

theorem insertionSort_filter (l : List ParsedTrade) (k : Timestamp) :
    (List.insertionSort tradeR l).filter (fun t => decide (tsKey t = k))
      = l.filter (fun t => decide (tsKey t = k)) := by
  induction l with
  | nil => rfl
  | cons a as ih =>
    simp only [List.insertionSort, orderedInsert_filter, ih, List.filter_cons]
    by_cases hak : tsKey a = k <;> simp [hak]

/-- `isinstance(ev, dict)`. -/
def isDictV : Value → Bool
  | .dict _ => true
  | _ => false

/-- The extraction loop of `load_trades` (lines 162–168): apply the
extractor to every mapping record, keep the trades, propagate any
exception. -/
def extractTrades : List Value → Except String (List ParsedTrade)
  | [] => .ok []
  | ev :: rest =>
    if isDictV ev then
      match parse_trade_event ev with
      | .error e => .error e
      | .ok none => extractTrades rest
      | .ok (some t) => (extractTrades rest).map (fun l => t :: l)
    else extractTrades rest

/-- `load_trades` (lines 157–170): a missing source file is a fatal
`SystemExit`; otherwise extract and stably sort by timestamp.  Sorting
two or more trades with a `None` timestamp raises `TypeError` in Python
(`None` is not comparable); a stable sort by the timestamp key models
`list.sort(key=...)`. -/
def load_trades (source : Option (List Value)) : Except String (List ParsedTrade) :=
  match source with
  | none => .error ("SystemExit")
  | some events =>
    match extractTrades events with
    | .error e => .error e
    | .ok trades =>
      if trades.length ≤ 1 then .ok trades
      else if trades.all (fun t => t.timestamp.isSome) then
        .ok (List.insertionSort tradeR trades)
      else .error ("TypeError")

/-- A well-formed source: every mapping record parses without raising,
and every accepted trade carries a timestamp. -/
def wfEvents (events : List Value) : Prop :=
  ∀ ev ∈ events, isDictV ev = true →
    ∃ r, parse_trade_event ev = .ok r ∧ ∀ t, r = some t → t.timestamp.isSome = true

theorem extractTrades_wf (events : List Value) (h : wfEvents events) :
    ∃ raw, extractTrades events = .ok raw ∧ ∀ t ∈ raw, t.timestamp.isSome = true := by
  induction events with
  | nil => exact ⟨[], rfl, by simp⟩
  | cons ev rest ih =>
    have hrest : wfEvents rest := fun e he hd => h e (List.mem_cons_of_mem ev he) hd
    obtain ⟨raw, hraw, hts⟩ := ih hrest
    by_cases hd : isDictV ev = true
    · obtain ⟨r, hr, hrts⟩ := h ev (List.mem_cons_self ev rest) hd
      cases r with
      | none =>
        refine ⟨raw, ?_, hts⟩
        simp only [extractTrades, if_pos hd, hr]
        exact hraw
      | some t =>
        refine ⟨t :: raw, ?_, ?_⟩
        · simp only [extractTrades, if_pos hd, hr, hraw, Except.map]
        · intro x hx
          rcases List.mem_cons.mp hx with rfl | hx
          · exact hrts x rfl
          · exact hts x hx
    · refine ⟨raw, ?_, hts⟩
      simp only [extractTrades, if_neg hd]
      exact hraw

/-- C8: `load_trades` fails exactly when the source is absent; on a
well-formed source it returns (without raising) precisely the trades the
extractor accepts from the mapping records, stably sorted ascending by
timestamp: the result is a permutation of the extracted list, sorted
under the timestamp order, with every timestamp class in input order. -/
theorem C8_loader :
    (∃ e, load_trades none = .error e) ∧
      ∀ events : List Value, wfEvents events →
        ∃ raw l, extractTrades events = .ok raw ∧ load_trades (some events) = .ok l ∧
          l.Perm raw ∧ l.Sorted tradeR ∧
          ∀ k : Timestamp, l.filter (fun t => decide (tsKey t = k))
              = raw.filter (fun t => decide (tsKey t = k)) := by
  constructor
  · exact ⟨"SystemExit", rfl⟩
  · intro events hwf
    obtain ⟨raw, hraw, hts⟩ := extractTrades_wf events hwf
    haveI : IsTotal ParsedTrade tradeR := ⟨fun a b => tsLe_total _ _⟩
    haveI : IsTrans ParsedTrade tradeR := ⟨fun a b c => tsLe_trans _ _ _⟩
    by_cases hlen : raw.length ≤ 1
    · refine ⟨raw, raw, hraw, ?_, List.Perm.refl raw, ?_, fun k => rfl⟩
      · simp only [load_trades, hraw, if_pos hlen]
      · match raw, hlen with
        | [], _ => exact List.sorted_nil
        | [x], _ => exact List.sorted_singleton x
    · refine ⟨raw, List.insertionSort tradeR raw, hraw, ?_, List.perm_insertionSort tradeR raw,
        List.sorted_insertionSort tradeR raw, fun k => insertionSort_filter raw k⟩
      have hall : raw.all (fun t => t.timestamp.isSome) = true := by
        rw [List.all_eq_true]
        intro t htm
        exact hts t htm
      simp only [load_trades, hraw, if_neg hlen, if_pos hall]

/-- A minimal executed-order record with the given timestamp string. -/
def c8rec (ts : String) : Value :=
  .dict [("subtitle", .str ("Kauforder")), ("timestamp", .str ts)]

/-- Concrete events: a non-mapping record and two trades out of
chronological order. -/
def c8events : List Value :=
  [ .num 5,
    c8rec ("2025-03-01T10:00:00.000+0000"),
    c8rec ("2024-01-01T10:00:00.000+0000") ]

/-- Witness for C8 on `c8events`. -/
theorem C8_loader_witness :
    (∃ e, load_trades none = .error e) ∧
      ∃ raw l, extractTrades c8events = .ok raw ∧ load_trades (some c8events) = .ok l ∧
        l.Perm raw ∧ l.Sorted tradeR ∧
        ∀ k : Timestamp, l.filter (fun t => decide (tsKey t = k))
            = raw.filter (fun t => decide (tsKey t = k)) :=
  ⟨C8_loader.1,
    C8_loader.2 c8events (by
      intro ev hev hd
      fin_cases hev
      · simp [isDictV] at hd
      · exact ⟨_, rfl, fun t ht => by injection ht with h; subst h; rfl⟩
      · exact ⟨_, rfl, fun t ht => by injection ht with h; subst h; rfl⟩)⟩

/-! ## Claim C5: round-trip of the value normalizer

`parse_shares` round-trips through the canonical decimal rendering;
`parse_money` does not, because re-parsing strips the decimal point of
the rendering as a thousands separator. -/

theorem digitsVal_foldl (l : List Char) (a : ℕ) :
    l.foldl (fun a c => 10 * a + digitVal c) a = a * 10 ^ l.length + digitsVal l := by
  induction l generalizing a with
  | nil => simp [digitsVal]
  | cons c cs ih =>
    simp only [List.foldl_cons, List.length_cons]
    rw [ih (10 * a + digitVal c)]
    have h0 : digitsVal (c :: cs) = digitVal c * 10 ^ cs.length + digitsVal cs := by
      simp only [digitsVal, List.foldl_cons]
      rw [ih (10 * 0 + digitVal c), ih 0]
      ring
    rw [h0]
    ring

theorem digitsVal_append (l1 l2 : List Char) :
    digitsVal (l1 ++ l2) = digitsVal l1 * 10 ^ l2.length + digitsVal l2 := by
  simp only [digitsVal, List.foldl_append]
  rw [digitsVal_foldl l2 (List.foldl (fun a c => 10 * a + digitVal c) 0 l1)]
  rfl

theorem digitVal_digitChar (d : ℕ) (h : d < 10) : digitVal (Nat.digitChar d) = d := by
  interval_cases d <;> decide

theorem digitChar_isDigit (d : ℕ) (h : d < 10) : (Nat.digitChar d).isDigit = true := by
  interval_cases d <;> decide

theorem digitsVal_rev_digits (ds : List ℕ) (h : ∀ d ∈ ds, d < 10) :
    digitsVal ((ds.map Nat.digitChar).reverse) = Nat.ofDigits 10 ds := by
  induction ds with
  | nil => simp [digitsVal, Nat.ofDigits]
  | cons d ds ih =>
    simp only [List.map_cons, List.reverse_cons, digitsVal_append]
    rw [ih (fun x hx => h x (List.mem_cons_of_mem d hx))]
    have hd : d < 10 := h d (List.mem_cons_self d ds)
    simp [digitsVal, Nat.ofDigits_cons, digitVal_digitChar d hd]
    ring

theorem digitsVal_natToChars (n : ℕ) : digitsVal (natToChars n) = n := by
  unfold natToChars
  by_cases hn : n = 0
  · simp [hn, digitsVal, digitVal]
  · rw [if_neg hn, digitsVal_rev_digits _ (fun d hd => Nat.digits_lt_base (by norm_num) hd)]
    exact Nat.ofDigits_digits 10 n

theorem natToChars_digits (n : ℕ) : ∀ c ∈ natToChars n, c.isDigit = true := by
  unfold natToChars
  by_cases hn : n = 0
  · simp [hn]
  · rw [if_neg hn]
    intro c hc
    rw [List.mem_reverse, List.mem_map] at hc
    obtain ⟨d, hd, rfl⟩ := hc
    exact digitChar_isDigit d (Nat.digits_lt_base (by norm_num) hd)

theorem natToChars_ne_nil (n : ℕ) : natToChars n ≠ [] := by
  unfold natToChars
  by_cases hn : n = 0
  · simp [hn]
  · rw [if_neg hn]
    simp only [ne_eq, List.reverse_eq_nil_iff, List.map_eq_nil]
    exact Nat.digits_ne_nil_iff_ne_zero.mpr hn

theorem natToChars_length_le (n k : ℕ) (hk : 1 ≤ k) (h : n < 10 ^ k) :
    (natToChars n).length ≤ k := by
  unfold natToChars
  by_cases hn : n = 0
  · simp [hn, hk]
  · rw [if_neg hn]
    simp only [List.length_reverse, List.length_map]
    by_contra hlen
    push_neg at hlen
    have h1 : 10 ^ (Nat.digits 10 n).length ≤ 10 * n :=
      Nat.base_pow_length_digits_le 10 n (by norm_num) hn
    have h2 : 10 ^ (k + 1) ≤ 10 ^ (Nat.digits 10 n).length :=
      Nat.pow_le_pow_right (by norm_num) hlen
    have h3 : 10 ^ (k + 1) = 10 * 10 ^ k := by ring
    omega

theorem digitsVal_replicate_zero (t : ℕ) (l : List Char) :
    digitsVal (List.replicate t '0' ++ l) = digitsVal l := by
  induction t with
  | zero => simp
  | succ t ih =>
    rw [List.replicate_succ, List.cons_append]
    simp only [digitsVal, List.foldl_cons]
    have : (10 * 0 + digitVal '0') = 0 := by decide
    rw [this]
    exact ih

theorem takeDigits_all (ds rest : List Char) (h : ∀ c ∈ ds, c.isDigit = true)
    (hrest : rest = [] ∨ ∃ c r, rest = c :: r ∧ c.isDigit = false) :
    takeDigits (ds ++ rest) = (ds, rest) := by
  induction ds with
  | nil =>
    rcases hrest with rfl | ⟨c, r, rfl, hc⟩
    · rfl
    · simp [takeDigits, hc]
  | cons d ds ih =>
    have hd : d.isDigit = true := h d (List.mem_cons_self d ds)
    simp only [List.cons_append, takeDigits, hd, if_true, List.append_eq]
    rw [ih (fun c hc => h c (List.mem_cons_of_mem d hc))]

theorem isDigit_not_pySpace (c : Char) (h : c.isDigit = true) : isPySpace c = false := by
  by_contra hc
  simp only [Bool.not_eq_false] at hc
  simp only [isPySpace, Bool.or_eq_true, decide_eq_true_eq] at hc
  rcases hc with ((((hc | hc) | hc) | hc) | hc) | hc <;> subst hc <;> simp at h

theorem isDigit_ne_signs (c : Char) (h : c.isDigit = true) :
    c ≠ '+' ∧ c ≠ '-' ∧ c ≠ ',' ∧ c ≠ ' ' ∧ c ≠ '\xa0' := by
  refine ⟨?_, ?_, ?_, ?_, ?_⟩ <;> intro hc <;> subst hc <;> simp at h

theorem dropWhile_nospace (l : List Char) (h : ∀ c ∈ l, isPySpace c = false) :
    l.dropWhile isPySpace = l := by
  cases l with
  | nil => rfl
  | cons c cs =>
    rw [List.dropWhile_cons, if_neg]
    simp [h c (List.mem_cons_self c cs)]

theorem strip_nospace (l : List Char) (h : ∀ c ∈ l, isPySpace c = false) :
    ((l.dropWhile isPySpace).reverse.dropWhile isPySpace).reverse = l := by
  rw [dropWhile_nospace l h, dropWhile_nospace l.reverse (fun c hc => h c (List.mem_reverse.mp hc)),
    List.reverse_reverse]

theorem pyFloat_decimal_shape (sgnNeg : Bool) (ip fp : List Char)
    (hip : ∀ c ∈ ip, c.isDigit = true) (hfp : ∀ c ∈ fp, c.isDigit = true)
    (hipne : ip ≠ []) (hfpne : fp ≠ []) :
    pyFloat ((if sgnNeg then ['-'] else []) ++ ip ++ '.' :: fp)
      = some ((if sgnNeg then (-1 : ℚ) else 1) *
          (((digitsVal ip * 10 ^ fp.length + digitsVal fp : ℕ) : ℚ) / 10 ^ fp.length)) := by
  have hall : ∀ c ∈ (if sgnNeg then ['-'] else []) ++ ip ++ '.' :: fp, isPySpace c = false := by
    intro c hc
    rcases List.mem_append.mp hc with hAB | hC
    · rcases List.mem_append.mp hAB with hA | hB
      · cases sgnNeg
        · simp at hA
        · simp only [if_true, List.mem_singleton] at hA
          subst hA
          decide
      · exact isDigit_not_pySpace c (hip c hB)
    · rcases List.mem_cons.mp hC with rfl | hfpmem
      · decide
      · exact isDigit_not_pySpace c (hfp c hfpmem)
  have htd1 : takeDigits (ip ++ '.' :: fp) = (ip, '.' :: fp) :=
    takeDigits_all ip ('.' :: fp) hip (Or.inr ⟨'.', fp, rfl, by decide⟩)
  have htd2 : takeDigits fp = (fp, []) := by
    simpa using takeDigits_all fp [] hfp (Or.inl rfl)
  obtain ⟨c0, ip', rfl⟩ : ∃ c0 ip', ip = c0 :: ip' := by
    cases ip with
    | nil => exact absurd rfl hipne
    | cons a b => exact ⟨a, b, rfl⟩
  have hc0 := hip c0 (List.mem_cons_self c0 ip')
  obtain ⟨hne1, hne2, -, -, -⟩ := isDigit_ne_signs c0 hc0
  have hstrip := strip_nospace _ hall
  cases sgnNeg with
  | true =>
    simp only [if_true] at hstrip ⊢
    simp only [List.cons_append, List.nil_append, List.append_assoc] at hstrip htd1 ⊢
    simp [pyFloat, signSplitQ, fracSplit, hstrip, htd1, htd2, hipne, hfpne]
  | false =>
    rw [if_neg (by decide)] at hstrip ⊢
    simp only [List.cons_append, List.nil_append, List.append_assoc] at hstrip htd1 ⊢
    simp [pyFloat, signSplitQ, fracSplit, hstrip, htd1, htd2, hipne, hfpne, hne1, hne2]

theorem pyFloat_renderChars (x : ℚ) (hdvd : x.den ∣ 10 ^ decExp x) :
    pyFloat (renderChars x) = some x := by
  set k := decExp x with hk
  set m := x.num.natAbs * 10 ^ k / x.den with hm
  set ip := natToChars (m / 10 ^ k) with hipdef
  set fds := natToChars (m % 10 ^ k) with hfdsdef
  set fchars := List.replicate (k - fds.length) '0' ++ fds with hfcharsdef
  have hrender : renderChars x = (if x < 0 then ['-'] else []) ++ ip ++ '.' :: fchars := rfl
  have hip_digits : ∀ c ∈ ip, c.isDigit = true := natToChars_digits _
  have hfds_digits : ∀ c ∈ fds, c.isDigit = true := natToChars_digits _
  have hfchars_digits : ∀ c ∈ fchars, c.isDigit = true := by
    intro c hc
    rcases List.mem_append.mp hc with h | h
    · rw [List.eq_of_mem_replicate h]; decide
    · exact hfds_digits c h
  have hfchars_ne : fchars ≠ [] := by
    intro hc
    rcases List.append_eq_nil.mp hc with ⟨-, h2⟩
    exact natToChars_ne_nil _ h2
  have hip_ne : ip ≠ [] := natToChars_ne_nil _
  -- arithmetic facts
  have hdenn : x.den ≠ 0 := x.den_nz
  have hdvd2 : x.den ∣ x.num.natAbs * 10 ^ k := Dvd.dvd.mul_left hdvd _
  have hmmul : m * x.den = x.num.natAbs * 10 ^ k := Nat.div_mul_cancel hdvd2
  have hpos : (0 : ℚ) < (x.den : ℚ) := by exact_mod_cast Nat.pos_of_ne_zero hdenn
  have habs : (m : ℚ) / 10 ^ k = (x.num.natAbs : ℚ) / (x.den : ℚ) := by
    rw [div_eq_div_iff (by positivity) (ne_of_gt hpos)]
    exact_mod_cast hmmul
  have habs2 : (x.num.natAbs : ℚ) / (x.den : ℚ) = |x| := by
    rw [Int.cast_natAbs]
    push_cast
    conv_rhs => rw [← Rat.num_div_den x]
    rw [abs_div, abs_of_pos hpos]
  have hdigits_ip : digitsVal ip = m / 10 ^ k := digitsVal_natToChars _
  have hdigits_fchars : digitsVal fchars = m % 10 ^ k := by
    rw [hfcharsdef, digitsVal_replicate_zero, hfdsdef, digitsVal_natToChars]
  have hvalue : ((digitsVal ip * 10 ^ fchars.length + digitsVal fchars : ℕ) : ℚ)
      / 10 ^ fchars.length = (m : ℚ) / 10 ^ k := by
    by_cases hk0 : k = 0
    · have hmod : m % 10 ^ k = 0 := by
        rw [hk0]; simp [Nat.mod_one]
      have hdiv : m / 10 ^ k = m := by
        rw [hk0]; simp
      have hfds1 : fds = ['0'] := by
        rw [hfdsdef, hmod]; rfl
      have hfc : fchars = ['0'] := by
        rw [hfcharsdef, hfds1, hk0]
        rfl
      rw [hdigits_ip, hdigits_fchars, hdiv, hmod, hfc, hk0]
      push_cast
      norm_num
    · have hk1 : 1 ≤ k := Nat.one_le_iff_ne_zero.mpr hk0
      have hmodlt : m % 10 ^ k < 10 ^ k := Nat.mod_lt m (by positivity)
      have hlen : fds.length ≤ k := natToChars_length_le _ k hk1 hmodlt
      have hfclen : fchars.length = k := by
        rw [hfcharsdef]
        simp only [List.length_append, List.length_replicate]
        omega
      rw [hfclen, hdigits_ip, hdigits_fchars]
      have hdm : (m / 10 ^ k) * 10 ^ k + m % 10 ^ k = m := by
        rw [Nat.mul_comm]
        exact Nat.div_add_mod m (10 ^ k)
      rw [hdm]
  -- assemble
  rw [hrender]
  by_cases hneg : x < 0
  · rw [if_pos hneg]
    have hshape := pyFloat_decimal_shape true ip fchars hip_digits hfchars_digits hip_ne hfchars_ne
    simp only [if_true] at hshape
    rw [hshape, hvalue, habs, habs2]
    rw [abs_of_neg hneg]
    norm_num
  · rw [if_neg hneg]
    have hshape := pyFloat_decimal_shape false ip fchars hip_digits hfchars_digits hip_ne hfchars_ne
    rw [if_neg (by decide)] at hshape
    rw [hshape, hvalue, habs, habs2]
    rw [abs_of_nonneg (le_of_not_lt hneg)]
    norm_num


theorem signSplitQ_fst (l : List Char) : (signSplitQ l).1 = 1 ∨ (signSplitQ l).1 = -1 := by
  cases l with
  | nil => left; rfl
  | cons c r =>
    by_cases h1 : c = '+'
    · left; simp [signSplitQ, h1]
    · by_cases h2 : c = '-'
      · right; simp [signSplitQ, h1, h2]
      · left; simp [signSplitQ, h1, h2]

theorem decimal_parts (s : ℚ) (hs : s = 1 ∨ s = -1) (N F : ℕ) (e : ℤ) :
    ∃ (a : ℤ) (j : ℕ), s * (((N : ℚ)) / 10 ^ F) * (10 : ℚ) ^ e = (a : ℚ) / 10 ^ j := by
  have h1 : (10 : ℚ) ^ F ≠ 0 := by positivity
  rcases hs with rfl | rfl
  · cases e with
    | ofNat n =>
      refine ⟨N * 10 ^ n, F, ?_⟩
      rw [Int.ofNat_eq_coe, zpow_natCast]
      push_cast
      ring
    | negSucc n =>
      refine ⟨N, F + (n + 1), ?_⟩
      rw [zpow_negSucc, pow_add]
      have h2 : (10 : ℚ) ^ (n + 1) ≠ 0 := by positivity
      field_simp
      left
      ring
  · cases e with
    | ofNat n =>
      refine ⟨-(N * 10 ^ n), F, ?_⟩
      rw [Int.ofNat_eq_coe, zpow_natCast]
      push_cast
      ring
    | negSucc n =>
      refine ⟨-N, F + (n + 1), ?_⟩
      rw [zpow_negSucc, pow_add]
      have h2 : (10 : ℚ) ^ (n + 1) ≠ 0 := by positivity
      field_simp
      left
      ring

theorem decimal_parts0 (s : ℚ) (hs : s = 1 ∨ s = -1) (N F : ℕ) :
    ∃ (a : ℤ) (j : ℕ), s * (((N : ℚ)) / 10 ^ F) = (a : ℚ) / 10 ^ j := by
  obtain ⟨a, j, ha⟩ := decimal_parts s hs N F 0
  exact ⟨a, j, by simpa using ha⟩

theorem pyFloat_decimal (cs : List Char) (x : ℚ) (h : pyFloat cs = some x) :
    ∃ (a : ℤ) (j : ℕ), x = (a : ℚ) / 10 ^ j := by
  simp only [pyFloat] at h
  split at h
  · exact absurd h (by simp)
  · split at h
    · -- no exponent
      injection h with h'
      subst h'
      exact decimal_parts0 _ (signSplitQ_fst _) _ _
    · -- possible exponent
      split at h
      · rcases hpe : pyFloat.pyFloatExp _ with _ | e
        · rw [hpe] at h
          exact absurd h (by simp)
        · rw [hpe] at h
          simp only [Option.map_some', Option.some.injEq] at h
          subst h
          exact decimal_parts _ (signSplitQ_fst _) _ _ e
      · exact absurd h (by simp)

theorem den_dvd_pow (x : ℚ) (a : ℤ) (j : ℕ) (h : x = (a : ℚ) / 10 ^ j) :
    x.den ∣ 10 ^ j := by
  have h1 : x = Rat.divInt a (10 ^ j) := by
    rw [Rat.divInt_eq_div, h]
    push_cast
    ring
  have h2 := Rat.den_dvd a ((10 : ℤ) ^ j)
  rw [← h1] at h2
  have h3 : ((10 : ℤ) ^ j) = ((10 ^ j : ℕ) : ℤ) := by push_cast; ring
  rw [h3] at h2
  exact_mod_cast h2

theorem dvd_ten_pow_self (d : ℕ) (j : ℕ) (hd : d ∣ 10 ^ j) : d ∣ 10 ^ d := by
  have h10 : (10 : ℕ) ^ j = 2 ^ j * 5 ^ j := by
    rw [← Nat.mul_pow]
  rw [h10] at hd
  obtain ⟨d2, d5, h2, h5, rfl⟩ := exists_dvd_and_dvd_of_dvd_mul hd
  obtain ⟨a, -, rfl⟩ := (Nat.dvd_prime_pow Nat.prime_two).mp h2
  obtain ⟨b, -, rfl⟩ := (Nat.dvd_prime_pow Nat.prime_five).mp h5
  have ha : a ≤ 2 ^ a * 5 ^ b := by
    have h1 : a < 2 ^ a := Nat.lt_two_pow a
    have h2 : 2 ^ a ≤ 2 ^ a * 5 ^ b := Nat.le_mul_of_pos_right _ (by positivity)
    omega
  have hb : b ≤ 2 ^ a * 5 ^ b := by
    have hb5 : b < 5 ^ b := Nat.lt_pow_self (by norm_num) b
    have h2 : 5 ^ b ≤ 2 ^ a * 5 ^ b := Nat.le_mul_of_pos_left _ (by positivity)
    omega
  have hsplit : (10 : ℕ) ^ (2 ^ a * 5 ^ b) = 2 ^ (2 ^ a * 5 ^ b) * 5 ^ (2 ^ a * 5 ^ b) := by
    rw [← Nat.mul_pow]
  rw [hsplit]
  exact Nat.mul_dvd_mul (pow_dvd_pow 2 ha) (pow_dvd_pow 5 hb)

theorem decExpGo_dvd (d : ℕ) :
    ∀ (fuel k : ℕ), (∃ i, k ≤ i ∧ i < k + fuel ∧ d ∣ 10 ^ i) → d ∣ 10 ^ decExpGo d fuel k := by
  intro fuel
  induction fuel with
  | zero =>
    intro k ⟨i, h1, h2, _⟩
    omega
  | succ fuel ih =>
    intro k ⟨i, h1, h2, h3⟩
    by_cases hk : d ∣ 10 ^ k
    · simp only [decExpGo, if_pos hk]
      exact hk
    · simp only [decExpGo, if_neg hk]
      refine ih (k + 1) ⟨i, ?_, by omega, h3⟩
      rcases Nat.eq_or_lt_of_le h1 with rfl | h
      · exact absurd h3 hk
      · omega

theorem decExp_dvd (x : ℚ) (j : ℕ) (h : x.den ∣ 10 ^ j) : x.den ∣ 10 ^ decExp x := by
  have hden := dvd_ten_pow_self x.den j h
  exact decExpGo_dvd x.den (x.den + 1) 0 ⟨x.den, by omega, by omega, hden⟩

theorem renderChars_classify (x : ℚ) :
    ∀ c ∈ renderChars x, c.isDigit = true ∨ c = '-' ∨ c = '.' := by
  intro c hc
  unfold renderChars at hc
  rcases List.mem_append.mp hc with hAB | hC
  · rcases List.mem_append.mp hAB with hA | hB
    · split at hA
      · simp only [List.mem_singleton] at hA
        exact Or.inr (Or.inl hA)
      · simp at hA
    · exact Or.inl (natToChars_digits _ c hB)
  · rcases List.mem_cons.mp hC with rfl | hfp
    · exact Or.inr (Or.inr rfl)
    · rcases List.mem_append.mp hfp with hrep | hfds
      · rw [List.eq_of_mem_replicate hrep]
        exact Or.inl (by decide)
      · exact Or.inl (natToChars_digits _ c hfds)

theorem removeChar_eq_self (c0 : Char) (l : List Char) (h : ∀ c ∈ l, c ≠ c0) :
    removeChar c0 l = l := by
  unfold removeChar
  rw [List.filter_eq_self]
  intro a ha
  simpa using h a ha

theorem mapChar_eq_self (a b : Char) (l : List Char) (h : ∀ c ∈ l, c ≠ a) :
    mapChar a b l = l := by
  unfold mapChar
  induction l with
  | nil => rfl
  | cons c cs ih =>
    simp only [List.map_cons]
    rw [if_neg (h c (List.mem_cons_self c cs)), ih (fun d hd => h d (List.mem_cons_of_mem c hd))]

theorem renderChars_clean (x : ℚ) :
    mapChar ',' '.' (removeChar ' ' (removeChar '\xa0' (renderChars x))) = renderChars x := by
  have hne : ∀ c ∈ renderChars x, c ≠ '\xa0' ∧ c ≠ ' ' ∧ c ≠ ',' := by
    intro c hc
    rcases renderChars_classify x c hc with hd | rfl | rfl
    · obtain ⟨-, -, h3, h4, h5⟩ := isDigit_ne_signs c hd
      exact ⟨h5, h4, h3⟩
    · refine ⟨by decide, by decide, by decide⟩
    · refine ⟨by decide, by decide, by decide⟩
  rw [removeChar_eq_self _ _ (fun c hc => (hne c hc).1)]
  rw [removeChar_eq_self _ _ (fun c hc => (hne c hc).2.1)]
  rw [mapChar_eq_self _ _ _ (fun c hc => (hne c hc).2.2)]

theorem parse_shares_pyFloat (t : String) (x : ℚ) (h : parse_shares (some t) = some x) :
    ∃ cs, pyFloat cs = some x := by
  simp only [parse_shares] at h
  rcases hpf : pyFloat (mapChar ',' '.' (removeChar ' ' (removeChar '\xa0' t.toList)))
      with _ | y
  · rw [hpf] at h
    obtain ⟨m, -, hm2⟩ := Option.bind_eq_some.mp h
    exact ⟨m, hm2⟩
  · rw [hpf] at h
    injection h with h'
    exact ⟨_, hpf.trans (by rw [h'])⟩

/-- C5 (amended): `parse_shares` round-trips — re-parsing the canonical
decimal rendering of a successfully parsed share count yields the same
number.  (`parse_money` does NOT round-trip: its re-parse strips the
decimal point as a thousands separator, see the counterexample.) -/
theorem C5_parse_shares_roundtrip :
    ∀ (t : String) (x : ℚ), parse_shares (some t) = some x →
      parse_shares (some (renderDecimal x)) = some x := by
  intro t x h
  obtain ⟨cs, hcs⟩ := parse_shares_pyFloat t x h
  obtain ⟨a, j, ha⟩ := pyFloat_decimal cs x hcs
  have hdvd := decExp_dvd x j (den_dvd_pow x a j ha)
  have hrender := pyFloat_renderChars x hdvd
  have htl : (renderDecimal x).toList = renderChars x := rfl
  simp only [parse_shares, htl, renderChars_clean, hrender]

/-- C5 counterexample: `parse_money` is not idempotent under
re-rendering — `parse_money('3,5') = 3.5`, `str(3.5) = '3.5'`, and
`parse_money('3.5') = 35` (the dot is stripped as a thousands
separator). -/
theorem C5_money_roundtrip_counterexample :
    parse_money (some ("3,5")) = some ((7 : ℚ) / 2) ∧
      renderDecimal ((7 : ℚ) / 2) = "3.5" ∧
      parse_money (some (renderDecimal ((7 : ℚ) / 2))) = some ((35 : ℚ)) ∧
      ((35 : ℚ) ≠ 7 / 2) := by
  have h1 : renderDecimal ((7 : ℚ) / 2) = "3.5" := by
    norm_num [renderDecimal, renderChars, decExp, decExpGo, natToChars, Nat.digitChar]
  refine ⟨?_, h1, ?_, by norm_num⟩
  · simp [parse_money, removeChar, mapChar, pyFloat, pyFloat.pyFloatExp, signSplitQ, signSplitZ,
      fracSplit, takeDigits, digitsVal, digitVal, isPySpace] <;> norm_num
  · rw [h1]
    simp [parse_money, removeChar, mapChar, pyFloat, pyFloat.pyFloatExp, signSplitQ, signSplitZ,
      fracSplit, takeDigits, digitsVal, digitVal, isPySpace] <;> norm_num

/-- Witness for C5 (amended) at the concrete input `'3.5'`. -/
theorem C5_parse_shares_roundtrip_witness :
    parse_shares (some ("3.5")) = some ((7 : ℚ) / 2) ∧
      parse_shares (some (renderDecimal ((7 : ℚ) / 2))) = some ((7 : ℚ) / 2) := by
  have h : parse_shares (some ("3.5")) = some ((7 : ℚ) / 2) := by
    simp [parse_shares, removeChar, mapChar, pyFloat, pyFloat.pyFloatExp, signSplitQ, signSplitZ,
      fracSplit, takeDigits, digitsVal, digitVal, isPySpace] <;> norm_num
  exact ⟨h, C5_parse_shares_roundtrip ("3.5") ((7 : ℚ) / 2) h⟩
